import Mathlib

/-!
Verification of the EdgeSync flow engine against its natural-language
specification.

The development shallowly embeds the Python sources of the flow engine:

* `flows/engine/dependency_resolver.py` — graph construction, three-color
  DFS cycle detection, Kahn's-algorithm leveling, critical-path search and
  parallelism metrics;
* `flows/engine/execution_context.py` — the per-run state store and its
  run-level / node-level status machines;
* `flows/engine/node_scheduler.py` — sequential scheduling, per-node
  execution and the failure policy;
* `flows/processors/…` — the moving-average, min/max, digital-output and
  analog-output processors.

Python dictionaries holding engine data are embedded as association lists
(`List (String × Val)`) or as total functions with an explicit default;
Python numbers are embedded as `ℚ` (all numeric claims use values exact in
both binary floating point and `ℚ`), mutation as explicit state passing,
and raised exceptions as `Except`.  Wall-clock fields (timestamps,
durations) and logging calls are omitted: no claim depends on them.
-/

/-- A Python value as it appears in the engine's data dictionaries:
a number, a string, a boolean, or a nested dictionary. -/
inductive Val where
  | num (q : ℚ)
  | str (s : String)
  | bool (b : Bool)
  | obj (fields : List (String × Val))

/-- Python truthiness of a `Val` (`0`, `""`, `False` and `{}` are falsy). -/
def valTruthy : Val → Bool
  | .num q => q != 0
  | .str s => s != ""
  | .bool b => b
  | .obj l => !l.isEmpty

/-- `float(value)` on an embedded value: numbers pass through, booleans
become `0`/`1`; strings and dictionaries are not converted (string parsing
is not modelled — no claim feeds a string where a number is expected, and
`float` of a dictionary raises, which `none` represents). -/
def valToFloat : Val → Option ℚ
  | .num q => some q
  | .bool b => some (if b then 1 else 0)
  | .str _ => none
  | .obj _ => none

/-- Look a key up in an association-list dictionary (`dict.get`). -/
def lookupA (k : String) : List (String × Val) → Option Val
  | [] => none
  | (k', v) :: rest => if k' = k then some v else lookupA k rest

/-- Set a key in an association-list dictionary, replacing in place or
appending, as Python dict assignment does. -/
def setA : List (String × Val) → String → Val → List (String × Val)
  | [], k, v => [(k, v)]
  | (k', v') :: rest, k, v =>
    if k' = k then (k, v) :: rest else (k', v') :: setA rest k v

/-- `base.update(upd)` on dictionaries: fold the updates into the base. -/
def mergeA (base upd : List (String × Val)) : List (String × Val) :=
  upd.foldl (fun acc kv => setA acc kv.1 kv.2) base

/-- `input_data.get('output') or input_data.get('value')`, then the
`is None` test is performed by the caller on the resulting `Option`:
a truthy `'output'` wins, otherwise the `'value'` entry (which may itself
be falsy, e.g. `0`) is used. -/
def getInputValue (input : List (String × Val)) : Option Val :=
  match lookupA "output" input with
  | some x => if valTruthy x then some x else lookupA "value" input
  | none => lookupA "value" input

/-- Minimum of a list of rationals (`min(...)` on a nonempty Python list;
the `[]` case is unreachable at every call site). -/
def listMin : List ℚ → ℚ
  | [] => 0
  | h :: t => t.foldl min h

/-- Maximum of a list of rationals (`max(...)` on a nonempty Python list). -/
def listMax : List ℚ → ℚ
  | [] => 0
  | h :: t => t.foldl max h

/-- `int(q)` — truncation toward zero, as Python's `int()` on a float. -/
def pyInt (q : ℚ) : ℤ := Int.tdiv q.num q.den

/-- `MovingAverageProcessor.execute` (`function_processors.py`).  The
processor's private mutable state is its sliding window, passed in and
returned explicitly.  The `set_flow_variable` side effect on the
processor-local context snapshot is omitted (never read by any claim). -/
def movingAverageExecute (windowSize : Nat) (window : List ℚ)
    (input : List (String × Val)) :
    Except String (List (String × Val) × List ℚ) :=
  match getInputValue input with
  | none => .error "No value provided for moving average calculation"
  | some v =>
    match valToFloat v with
    | none => .error "Invalid numeric value for moving average"
    | some x =>
      let w1 := window ++ [x]
      let w2 := if windowSize < w1.length then w1.drop 1 else w1
      let avg := w2.sum / (w2.length : ℚ)
      .ok ([("output", .num avg),
            ("current_value", .num x),
            ("window_size", .num (w2.length : ℚ)),
            ("window_full", .bool (w2.length == windowSize)),
            ("min_in_window", .num (listMin w2)),
            ("max_in_window", .num (listMax w2))], w2)

/-- Private mutable state of `MinMaxProcessor`. -/
structure MinMaxState where
  minValue : Option ℚ
  maxValue : Option ℚ
  valueHistory : List ℚ

/-- `MinMaxProcessor.execute` (`function_processors.py`), with the mode and
optional window size read from the node configuration passed as
parameters and the private state passed explicitly.  `if self.window_size:`
is Python truthiness on the configured value (`None` and `0` are falsy). -/
def minMaxExecute (mode : String) (windowSize : Option Nat) (st : MinMaxState)
    (input : List (String × Val)) :
    Except String (List (String × Val) × MinMaxState) :=
  match getInputValue input with
  | none => .error "No value provided for min/max calculation"
  | some v =>
    match valToFloat v with
    | none => .error "Invalid numeric value for min/max"
    | some x =>
      let windowed := match windowSize with
        | none => false
        | some w => w != 0
      let st' :=
        if windowed then
          let h1 := st.valueHistory ++ [x]
          let h2 := if windowSize.getD 0 < h1.length then h1.drop 1 else h1
          { st with valueHistory := h2 }
        else
          { st with
            minValue := some (match st.minValue with
              | none => x
              | some m => if x < m then x else m),
            maxValue := some (match st.maxValue with
              | none => x
              | some m => if m < x then x else m) }
      let currentMin := if windowed then listMin st'.valueHistory
        else (st'.minValue).getD 0
      let currentMax := if windowed then listMax st'.valueHistory
        else (st'.maxValue).getD 0
      let output : Val :=
        if mode = "min" then .num currentMin
        else if mode = "max" then .num currentMax
        else .obj [("min", .num currentMin), ("max", .num currentMax)]
      .ok ([("output", output),
            ("current_value", .num x),
            ("min", .num currentMin),
            ("max", .num currentMax),
            ("range", .num (currentMax - currentMin))], st')

/-- `bool`-coercion used by `DigitalOutputProcessor.execute`: strings are
matched against a truthy-word list, numbers (including Python booleans,
which are ints) by `> 0`, everything else by Python truthiness. -/
def pyToBool : Val → Bool
  | .str s => s.toLower == "true" || s.toLower == "1" || s.toLower == "on"
      || s.toLower == "yes" || s.toLower == "high"
  | .num q => decide (0 < q)
  | .bool b => b
  | .obj l => !l.isEmpty

/-- `DigitalOutputProcessor.execute` (`output_processors.py`).  The
channel-layer broadcast `_send_digital_output` is an external collaborator
call, modelled as a no-op success; the `timestamp` field and the current
state / flow-variable side effects are omitted. -/
def digitalOutputExecute (invertLogic : Bool) (input : List (String × Val)) :
    Except String (List (String × Val)) :=
  match getInputValue input with
  | none => .error "No value provided for digital output"
  | some v =>
    let b0 := pyToBool v
    let b := if invertLogic then !b0 else b0
    .ok [("output", .bool b),
         ("state", .str (if b then "HIGH" else "LOW"))]

/-- `AnalogOutputProcessor.execute` (`output_processors.py`), with the
configured bounds and resolution as parameters (defaults `0`, `255`, `8`).
The channel-layer broadcast and `timestamp` field are omitted as above. -/
def analogOutputExecute (minValue maxValue : ℚ) (resolution : Nat)
    (input : List (String × Val)) : Except String (List (String × Val)) :=
  match getInputValue input with
  | none => .error "No value provided for analog output"
  | some v =>
    match valToFloat v with
    | none => .error "Invalid numeric value for analog output"
    | some x =>
      let constrained := max minValue (min maxValue x)
      let maxDigital : ℤ := 2 ^ resolution - 1
      let digital := pyInt ((constrained - minValue) / (maxValue - minValue)
        * (maxDigital : ℚ))
      .ok [("output", .num constrained),
           ("digital_value", .num (digital : ℚ)),
           ("percentage",
             .num ((constrained - minValue) / (maxValue - minValue) * 100))]

/-! ## Dependency resolver: graph construction (`dependency_resolver.py`) -/

/-- Forward adjacency map `_build_dependency_graph` builds:
`dependency_graph[source].append(target)` for every edge, in edge order. -/
def dependencyGraph (edges : List (String × String)) (n : String) :
    List String :=
  (edges.filter (fun e => e.1 == n)).map Prod.snd

/-- Reverse adjacency map: `reverse_graph[target].append(source)` for every
edge, in edge order — the prerequisites of a node. -/
def reverseGraph (edges : List (String × String)) (n : String) :
    List String :=
  (edges.filter (fun e => e.2 == n)).map Prod.fst

/-- Edge-list adjacency as a relation. -/
def EdgeAdj (edges : List (String × String)) (a b : String) : Prop :=
  (a, b) ∈ edges

/-- `CycleAt edges x rest` — the node list `x :: rest` is a directed cycle:
consecutive nodes are joined by edges and the last node has an edge back to
`x` (for `rest = []` this is a self-loop on `x`). -/
def CycleAt (edges : List (String × String)) (x : String)
    (rest : List String) : Prop :=
  List.Chain (EdgeAdj edges) x (rest ++ [x])

/-- A graph has a cycle iff some node list forms one. -/
def HasCycle (edges : List (String × String)) : Prop :=
  ∃ x rest, CycleAt edges x rest

/-- `CircularDependencyError`, with its two raise sites: the explicit
cycle-detection failure (carrying the discovered cycle's nodes) and the
defensive unprocessed-nodes check inside the topological sort. -/
inductive CircularDependencyError where
  | circular (cycleNodes : List String)
  | unprocessed (nodes : List String)
deriving DecidableEq, Repr

/-! ## Dependency resolver: three-color DFS cycle detection -/

/-- The three DFS colors (`WHITE, GRAY, BLACK = 0, 1, 2`). -/
inductive Color where
  | white
  | gray
  | black
deriving DecidableEq, Repr

/-- A coloring of nodes, total with every node initially white. -/
abbrev Coloring := String → Color

/-- Functional update of a coloring. -/
def updC (c : Coloring) (x : String) (v : Color) : Coloring :=
  fun y => if y = x then v else c y

/-- Result of the recursive `dfs` helper of `detect_cycles`: either a cycle
was found (`cycle_nodes` is `path[path.index(node):]` at the moment the
gray node was re-entered, after which every frame returns `True`
immediately), or the traversal finished with an updated coloring (the
`path` mutations are net-zero on this branch and the caller's `path` is
unchanged, so only the coloring is returned). -/
inductive DfsResult where
  | cycleFound (cyc : List String)
  | finished (colors : Coloring)

/-- The `for neighbor in self.dependency_graph[node_id]` loop of `dfs`,
followed by `path.pop(); colors[node_id] = BLACK` once the neighbor list is
exhausted.  The recursive visit of a neighbor is the `visit` parameter
(instantiated with `dfsVisit` at one less fuel). -/
def dfsNeighbors (visit : Coloring → String → List String → DfsResult) :
    Coloring → List String → List String → String → DfsResult
  | colors, [], _, node => .finished (updC colors node .black)
  | colors, nb :: rest, path, node =>
    match visit colors nb path with
    | .cycleFound c => .cycleFound c
    | .finished colors₂ => dfsNeighbors visit colors₂ rest path node

/-- The body of `dfs(node_id, path)`: a gray node closes a cycle, a black
node is skipped, a white node is grayed, pushed on the path and its
neighbors explored; `fuel` bounds the recursion depth (it strictly exceeds
the number of white nodes at every call, so the `0` case is unreachable —
proved below). -/
def dfsVisit (g : String → List String) :
    Nat → Coloring → String → List String → DfsResult
  | 0, colors, _, _ => .finished colors
  | fuel + 1, colors, node, path =>
    if colors node = .gray then
      .cycleFound (path.dropWhile (fun x => x != node))
    else if colors node = .black then
      .finished colors
    else
      dfsNeighbors (dfsVisit g fuel) (updC colors node .gray) (g node)
        (path ++ [node]) node

/-- The top-level loop of `detect_cycles`: start a DFS at every still-white
node, in node order. -/
def detectCyclesLoop (g : String → List String) (fuel : Nat) :
    List String → Coloring → Bool × List String
  | [], _ => (false, [])
  | n :: rest, colors =>
    if colors n = .white then
      match dfsVisit g fuel colors n [] with
      | .cycleFound c => (true, c)
      | .finished colors₂ => detectCyclesLoop g fuel rest colors₂
    else
      detectCyclesLoop g fuel rest colors

/-- `DependencyResolver.detect_cycles`: returns `(has_cycles, cycle_nodes)`.
`nodes` is the resolver's node-id list (Python dict keys: unique, in
insertion order). -/
def detect_cycles (nodes : List String) (edges : List (String × String)) :
    Bool × List String :=
  detectCyclesLoop (dependencyGraph edges) (nodes.length + 1) nodes
    (fun _ => .white)

/-! ## Dependency resolver: Kahn's algorithm (`_topological_sort`) -/

/-- Functional update of an in-degree map. -/
def updZ (f : String → ℤ) (x : String) (v : ℤ) : String → ℤ :=
  fun y => if y = x then v else f y

/-- The inner `for dependent_node in self.dependency_graph[node_id]` loop:
decrement each dependent's in-degree and append it to the next-level queue
exactly when the counter reaches zero. -/
def decrementDeps : List String → (String → ℤ) → List String →
    (String → ℤ) × List String
  | [], inDeg, queue => (inDeg, queue)
  | d :: rest, inDeg, queue =>
    let v := inDeg d - 1
    decrementDeps rest (updZ inDeg d v) (if v = 0 then queue ++ [d] else queue)

/-- The `for node_id in current_level` loop over one emitted level. -/
def processLevel (g : String → List String) :
    List String → (String → ℤ) → List String → (String → ℤ) × List String
  | [], inDeg, queue => (inDeg, queue)
  | n :: rest, inDeg, queue =>
    let r := decrementDeps (g n) inDeg queue
    processLevel g rest r.1 r.2

/-- The `while queue` loop of `_topological_sort`: materialize the queue as
the next execution level, process it, and continue with the newly
zero-in-degree nodes.  `fuel` bounds the iteration count (each iteration
emits at least one never-before-seen node, so `nodes.length + 1` iterations
always suffice — the fuel-exhaustion branch is proved unreachable). -/
def kahnLoop (g : String → List String) :
    Nat → (String → ℤ) → List String → List (List String) →
    List (List String)
  | _, _, [], acc => acc
  | 0, _, _ :: _, acc => acc
  | fuel + 1, inDeg, q :: qs, acc =>
    let r := processLevel g (q :: qs) inDeg []
    kahnLoop g fuel r.1 r.2 (acc ++ [q :: qs])

/-- `DependencyResolver._topological_sort`: in-degrees from the reverse
graph, initial queue of zero-in-degree nodes in node order, the Kahn loop,
and the defensive check that every node was leveled. -/
def topological_sort (nodes : List String)
    (edges : List (String × String)) :
    Except CircularDependencyError (List (List String)) :=
  let g := dependencyGraph edges
  let inDeg : String → ℤ := fun n => ((reverseGraph edges n).length : ℤ)
  let queue := nodes.filter (fun n => inDeg n == 0)
  let levels := kahnLoop g (nodes.length + 1) inDeg queue []
  if (levels.map List.length).sum = nodes.length then .ok levels
  else .error (.unprocessed
    (nodes.filter (fun n => !(levels.any (fun lv => lv.contains n)))))

/-- `DependencyResolver.resolve_dependencies`: cycle detection first (a
cyclic graph raises before any execution levels are produced), then the
topological sort with its own defensive cycle check. -/
def resolve_dependencies (nodes : List String)
    (edges : List (String × String)) :
    Except CircularDependencyError (List (List String)) :=
  let dc := detect_cycles nodes edges
  if dc.1 then .error (.circular dc.2) else topological_sort nodes edges

/-! ## Dependency resolver: critical path and parallelism -/

/-- One step of the `while queue` BFS of `_find_path`: examine the
neighbors of the dequeued node, returning early when the target is reached
and otherwise enqueueing unvisited neighbors with their extended paths. -/
def bfsNeighbors (target : String) :
    List String → List String → List (String × List String) → List String →
    List String ⊕ List (String × List String)
  | [], _, queue, _ => .inr queue
  | nb :: rest, path, queue, visited =>
    let newPath := path ++ [nb]
    if nb = target then .inl newPath
    else
      bfsNeighbors target rest path
        (if visited.contains nb then queue else queue ++ [(nb, newPath)])
        visited

/-- The `while queue` loop of `_find_path`: dequeue, skip visited nodes,
mark visited, examine neighbors.  `fuel` bounds the iteration count (the
total number of dequeues never exceeds `edges + 2`, see `find_path`). -/
def findPathAux (g : String → List String) (target : String) :
    Nat → List (String × List String) → List String → List String
  | 0, _, _ => []
  | _ + 1, [], _ => []
  | fuel + 1, (node, path) :: rest, visited =>
    if visited.contains node then findPathAux g target fuel rest visited
    else
      match bfsNeighbors target (g node) path rest (node :: visited) with
      | .inl found => found
      | .inr queue₂ => findPathAux g target fuel queue₂ (node :: visited)

/-- `DependencyResolver._find_path`: breadth-first search from `start` to
`target` over the forward dependency graph, returning the discovered path
or `[]`.  The BFS dequeues at most `1 + edges` entries (each unvisited
dequeue marks a new node visited and enqueues at most its out-edges, and
the out-edge lists of distinct nodes partition the edge list), so the fuel
`edges.length + 2` never runs out. -/
def find_path (edges : List (String × String)) (start target : String) :
    List String :=
  if start = target then [start]
  else
    findPathAux (dependencyGraph edges) target (edges.length + 2)
      [(start, [start])] []

/-- `DependencyResolver.get_critical_path`: breadth-first path search
between each first-level and each last-level node, keeping the first
strictly longest result. -/
def get_critical_path (edges : List (String × String))
    (levels : List (List String)) : List String :=
  match levels with
  | [] => []
  | _ :: _ =>
    let startNodes := levels.headD []
    let endNodes := levels.getLastD []
    (startNodes.foldl (fun acc s =>
      endNodes.foldl (fun acc e =>
        let p := find_path edges s e
        if acc.2 < p.length then (p, p.length) else acc) acc)
      (([] : List String), 0)).1

/-- `max(xs)` over a list of naturals (`0` on the empty list, which every
call guards against). -/
def pyMaxNat (l : List Nat) : Nat := l.foldl Nat.max 0

/-- The metrics dictionary returned by `analyze_parallelism`. -/
structure ParallelismInfo where
  total_nodes : Nat
  execution_levels : Nat
  max_parallel_nodes : Nat
  avg_parallel_nodes : ℚ
  parallelism_factor : ℚ
deriving DecidableEq, Repr

/-- `DependencyResolver.analyze_parallelism` over the resolved execution
levels. -/
def analyze_parallelism (nodes : List String)
    (levels : List (List String)) : ParallelismInfo :=
  let total := nodes.length
  let maxParallel := if levels.isEmpty then 0
    else pyMaxNat (levels.map List.length)
  let avgParallel : ℚ := if levels.isEmpty then 0
    else ((levels.map List.length).sum : ℚ) / (levels.length : ℚ)
  { total_nodes := total
    execution_levels := levels.length
    max_parallel_nodes := maxParallel
    avg_parallel_nodes := avgParallel
    parallelism_factor :=
      if 0 < total then (maxParallel : ℚ) / (total : ℚ) else 0 }

/-! ## Execution context (`execution_context.py`) -/

/-- `ExecutionStatus` — the shared run-level / node-level status enum. -/
inductive ExecutionStatus where
  | pending
  | running
  | completed
  | failed
  | stopped
  | paused
deriving DecidableEq, Repr

/-- The aggregate metrics dictionary of a run.  The two wall-clock fields
(`total_execution_time`, `average_node_time`) are omitted: no claim
depends on them. -/
structure Metrics where
  nodes_executed : Nat
  nodes_failed : Nat
deriving DecidableEq, Repr

/-- `ExecutionContext` — the per-run state store.  The node-status and
node-result dictionaries are embedded as total functions (Python's
`.get(node_id, PENDING)` default is `pending` / `none`); the bounded
execution log, flow-scoped variables and identifier fields are omitted
(no claim reads them). -/
structure ExecutionContext where
  status : ExecutionStatus
  error_message : Option String
  node_status : String → ExecutionStatus
  node_results : String → Option (List (String × Val))
  metrics : Metrics

/-- A freshly constructed context: `PENDING`, no error, all nodes pending,
no results, zeroed metrics. -/
def initContext : ExecutionContext :=
  { status := .pending
    error_message := none
    node_status := fun _ => .pending
    node_results := fun _ => none
    metrics := { nodes_executed := 0, nodes_failed := 0 } }

/-- `ExecutionContext.start_execution`. -/
def start_execution (ctx : ExecutionContext) : ExecutionContext :=
  { ctx with status := .running }

/-- `ExecutionContext.complete_execution(success, error)`: `COMPLETED`
exactly when `success` is true and the error is falsy (Python
`if success and not error:`, where both `None` and the empty string are
falsy), otherwise `FAILED`; the error message is overwritten either way. -/
def complete_execution (success : Bool) (error : Option String)
    (ctx : ExecutionContext) : ExecutionContext :=
  let errFalsy := match error with
    | none => true
    | some s => s == ""
  { ctx with
    error_message := error
    status := if success && errFalsy then .completed else .failed }

/-- `ExecutionContext.pause_execution`: `RUNNING → PAUSED`, otherwise a
no-op. -/
def pause_execution (ctx : ExecutionContext) : ExecutionContext :=
  if ctx.status = .running then { ctx with status := .paused } else ctx

/-- `ExecutionContext.resume_execution`: `PAUSED → RUNNING`, otherwise a
no-op. -/
def resume_execution (ctx : ExecutionContext) : ExecutionContext :=
  if ctx.status = .paused then { ctx with status := .running } else ctx

/-- `ExecutionContext.stop_execution(reason)`: unconditionally `STOPPED`,
recording the reason as the error message. -/
def stop_execution (reason : String) (ctx : ExecutionContext) :
    ExecutionContext :=
  { ctx with status := .stopped, error_message := some reason }

/-- `ExecutionContext.set_node_status`. -/
def set_node_status (n : String) (s : ExecutionStatus)
    (ctx : ExecutionContext) : ExecutionContext :=
  { ctx with node_status := fun m => if m = n then s else ctx.node_status m }

/-- `ExecutionContext.get_node_status` (default `PENDING` is built into the
total-function embedding). -/
def get_node_status (ctx : ExecutionContext) (n : String) : ExecutionStatus :=
  ctx.node_status n

/-- `ExecutionContext.set_node_result`: store the result and bump
`nodes_executed` / `nodes_failed` according to the node's status *at the
time the result is stored* (the data is wrapped with a timestamp and the
execution id in Python; those fields are never read back by the engine and
are omitted, `get_node_result` returning the unwrapped `result`). -/
def set_node_result (n : String) (result : List (String × Val))
    (ctx : ExecutionContext) : ExecutionContext :=
  let ctx' := { ctx with
    node_results := fun m => if m = n then some result else ctx.node_results m }
  match get_node_status ctx' n with
  | .completed => { ctx' with metrics :=
      { ctx'.metrics with nodes_executed := ctx'.metrics.nodes_executed + 1 } }
  | .failed => { ctx' with metrics :=
      { ctx'.metrics with nodes_failed := ctx'.metrics.nodes_failed + 1 } }
  | _ => ctx'

/-- `ExecutionContext.get_node_result`. -/
def get_node_result (ctx : ExecutionContext) (n : String) :
    Option (List (String × Val)) :=
  ctx.node_results n

/-- `ExecutionContext.get_node_input_data`: merge the stored results of all
prerequisite nodes, in prerequisite order (a missing or empty result — both
falsy in Python — contributes nothing; results are always dictionaries in
this engine, so the non-dict namespacing branch is unreachable). -/
def get_node_input_data (ctx : ExecutionContext)
    (depGraph : String → List String) (n : String) : List (String × Val) :=
  (depGraph n).foldl (fun acc p =>
    match get_node_result ctx p with
    | none => acc
    | some r => if r.isEmpty then acc else mergeA acc r) []

/-- `ExecutionContext.is_running`: true when the status is `RUNNING` *or*
`PAUSED` (the docstring says so explicitly). -/
def is_running (ctx : ExecutionContext) : Bool :=
  ctx.status == .running || ctx.status == .paused

/-- `ExecutionContext.is_completed`. -/
def is_completed (ctx : ExecutionContext) : Bool :=
  ctx.status == .completed || ctx.status == .failed || ctx.status == .stopped

/-- `ExecutionContext.can_execute_node`: the run must be "running"
(`is_running`, which includes `PAUSED`), the node must not already be
completed or running, and every prerequisite must be completed. -/
def can_execute_node (ctx : ExecutionContext) (n : String)
    (depGraph : String → List String) : Bool :=
  is_running ctx &&
  !(get_node_status ctx n == .completed
    || get_node_status ctx n == .running) &&
  (depGraph n).all (fun p => get_node_status ctx p == .completed)

/-! ## Node scheduler (`node_scheduler.py`) -/

/-- The critical node types of `_should_stop_on_error`. -/
def critical_node_types : List String := ["device", "custom-function"]

/-- `NodeScheduler._should_stop_on_error`: stop the run exactly when the
failed node's type is critical. -/
def should_stop_on_error (nodeType : String → String) (n : String) : Bool :=
  critical_node_types.contains (nodeType n)

/-- `NodeScheduler._execute_single_node`.  The processor behaviors are a
parameter `procs : node id → input → Except message output` standing for
`safe_execute`, which converts every exception the processor raises into an
`ExecutionError` (so the scheduler's `except Exception` fallback is
unreachable for processor failures and is not part of this model).
Callbacks and logging are omitted; the wall-clock `execution_time_ms` is
stored as `0` and the error result's `timestamp` is omitted. -/
def execute_single_node (nodeType : String → String)
    (procs : String → List (String × Val) → Except String (List (String × Val)))
    (depGraph : String → List String) (ctx : ExecutionContext) (n : String) :
    ExecutionContext :=
  if !(can_execute_node ctx n depGraph) then ctx
  else
    let ctx₁ := set_node_status n .running ctx
    let input := get_node_input_data ctx₁ depGraph n
    match procs n input with
    | .ok result =>
      let executionResult := mergeA result
        [("execution_time_ms", .num 0),
         ("node_id", .str n),
         ("node_type", .str (nodeType n))]
      let ctx₂ := set_node_result n executionResult ctx₁
      set_node_status n .completed ctx₂
    | .error msg =>
      let ctx₂ := set_node_status n .failed ctx₁
      let errorResult : List (String × Val) :=
        [("error", .str msg),
         ("node_id", .str n),
         ("node_type", .str (nodeType n))]
      let ctx₃ := set_node_result n errorResult ctx₂
      if should_stop_on_error nodeType n then
        stop_execution ("Critical node " ++ n ++ " failed: " ++ msg) ctx₃
      else ctx₃

/-- The inner `for node_id in level_nodes` loop of `_execute_sequential`:
the loop breaks as soon as the context stops being "running"; since a
non-"running" context is left untouched by the remaining iterations, the
break is modelled by a skipping fold. -/
def execute_level_sequential (nodeType : String → String)
    (procs : String → List (String × Val) → Except String (List (String × Val)))
    (depGraph : String → List String) (level : List String)
    (ctx : ExecutionContext) : ExecutionContext :=
  level.foldl (fun c n =>
    if !(is_running c) then c
    else execute_single_node nodeType procs depGraph c n) ctx

/-- `NodeScheduler._execute_sequential` (without the surrounding
`execute_flow` start): iterate the levels (the early `break` on a
non-"running" context is again a skipping fold), then *unconditionally*
mark the execution completed with `complete_execution(success=True)`. -/
def execute_sequential (nodeType : String → String)
    (procs : String → List (String × Val) → Except String (List (String × Val)))
    (depGraph : String → List String) (levels : List (List String))
    (ctx : ExecutionContext) : ExecutionContext :=
  let afterLevels := levels.foldl (fun c lv =>
    if !(is_running c) then c
    else execute_level_sequential nodeType procs depGraph lv c) ctx
  complete_execution true none afterLevels

/-- `NodeScheduler.execute_flow` restricted to the sequential strategy:
`start_execution`, then `_execute_sequential`. -/
def execute_flow_sequential (nodeType : String → String)
    (procs : String → List (String × Val) → Except String (List (String × Val)))
    (depGraph : String → List String) (levels : List (List String))
    (ctx : ExecutionContext) : ExecutionContext :=
  execute_sequential nodeType procs depGraph levels (start_execution ctx)

/-! ## Properties used by the verification

The following `Prop`-valued definitions name the graph-theoretic notions
the theorems below are stated with: validity of the edge list with respect
to the node set, the per-level prerequisite property of the produced
execution levels, transitive dependency, and the invariants threaded
through the DFS and breadth-first searches. -/

/-- Every edge endpoint names a declared node (Python raises `KeyError`
otherwise; all engine flows satisfy this). -/
def EdgesValid (nodes : List String) (edges : List (String × String)) :
    Prop :=
  ∀ e ∈ edges, e.1 ∈ nodes ∧ e.2 ∈ nodes

/-- The central property of the execution levels: every prerequisite of a
node in level `k` lies in some level `0..k-1`. -/
def LevelsOK (edges : List (String × String))
    (levels : List (List String)) : Prop :=
  ∀ k lv, levels[k]? = some lv → ∀ n ∈ lv, ∀ p ∈ reverseGraph edges n,
    p ∈ (levels.take k).flatten

/-- `b` depends (transitively) on `a`: there is a nonempty directed path
`a → … → b`. -/
def DependsOn (edges : List (String × String)) (a b : String) : Prop :=
  Relation.TransGen (EdgeAdj edges) a b

/-- Number of prerequisite edge instances of `n` whose source has not yet
been emitted in a level — the meaning of the mutating `in_degree` counter
of `_topological_sort`. -/
def unprocCount (edges : List (String × String)) (processed : List String)
    (n : String) : Nat :=
  edges.countP (fun e => e.2 == n && !(processed.contains e.1))

/-- The loop invariant of Kahn's algorithm, relating the emitted levels
`acc`, the pending queue and the in-degree map: no node is seen twice, all
seen nodes are declared, the in-degree counter counts not-yet-processed
prerequisite instances, seen nodes have counter zero, unseen nodes have a
nonzero counter, and the emitted levels satisfy the per-level prerequisite
property. -/
structure KahnInv (nodes : List String) (edges : List (String × String))
    (acc : List (List String)) (queue : List String) (inDeg : String → ℤ) :
    Prop where
  seenNodup : (acc.flatten ++ queue).Nodup
  seenSub : ∀ x ∈ acc.flatten ++ queue, x ∈ nodes
  degEq : ∀ n ∈ nodes, inDeg n = (unprocCount edges acc.flatten n : ℤ)
  seenZero : ∀ n ∈ acc.flatten ++ queue, inDeg n = 0
  unseenNonzero : ∀ n ∈ nodes, n ∉ acc.flatten ++ queue → inDeg n ≠ 0
  levelsOK : LevelsOK edges acc

/-- Number of white nodes of a coloring, counted over the node list. -/
def whiteCount (nodes : List String) (colors : Coloring) : Nat :=
  nodes.countP (fun n => colors n == Color.white)

/-- The state invariant of the three-color DFS: only declared nodes are
colored, every neighbor of a black node is black, and no cycle consists
entirely of black nodes. -/
structure ColorInv (nodes : List String) (edges : List (String × String))
    (colors : Coloring) : Prop where
  coloredSub : ∀ x, colors x ≠ .white → x ∈ nodes
  blackClosed : ∀ x, colors x = .black →
    ∀ y ∈ dependencyGraph edges x, colors y = .black
  noBlackCycle : ∀ x rest, CycleAt edges x rest →
    ¬(colors x = .black ∧ ∀ y ∈ rest, colors y = .black)

/-- What the DFS reports when it finds a cycle: the reported node list is
`x :: rest` for an actual directed cycle through `x`. -/
def CycleReport (edges : List (String × String)) (c : List String) : Prop :=
  ∃ x rest, c = x :: rest ∧ CycleAt edges x rest

/-- Post-condition of a finished (no cycle found) DFS call entered with
gray stack `path` working on `node`: the invariant is maintained, the gray
set is restored to `path`, `node` is black, blackness is preserved and no
node got whitened. -/
def DfsPost (nodes : List String) (edges : List (String × String))
    (path : List String) (node : String) (colors colors₂ : Coloring) :
    Prop :=
  ColorInv nodes edges colors₂ ∧
  (∀ x, colors₂ x = .gray ↔ x ∈ path) ∧
  colors₂ node = .black ∧
  (∀ x, colors x = .black → colors₂ x = .black) ∧
  (∀ x, colors₂ x = .white → colors x = .white)

/-- Invariant of one `_find_path` BFS queue entry `(node, path)`: the path
is a nonempty edge chain from `start` to `node`. -/
def BfsEntryInv (edges : List (String × String)) (start : String)
    (en : String × List String) : Prop :=
  en.2 ≠ [] ∧ List.Chain' (EdgeAdj edges) en.2 ∧
  en.2.headD "" = start ∧ en.2.getLastD "" = en.1

/-- Classification invariant of a sequential run in which exactly one
node `f` (non-critical) fails: the run status is still `RUNNING`, `f` once
processed is `FAILED` with an error-keyed stored result, processed nodes
that do not depend on `f` are `COMPLETED`, processed nodes that depend on
`f` remain `PENDING` (some prerequisite never completed), and unprocessed
nodes are `PENDING`. -/
def SeqInv (edges : List (String × String)) (f : String)
    (done : List String) (ctx : ExecutionContext) : Prop :=
  ctx.status = .running ∧
  (f ∈ done → ctx.node_status f = .failed ∧
    ∃ r, ctx.node_results f = some r ∧ lookupA "error" r ≠ none) ∧
  (∀ n ∈ done, n ≠ f → ¬DependsOn edges f n →
    ctx.node_status n = .completed) ∧
  (∀ n ∈ done, n ≠ f → DependsOn edges f n →
    ctx.node_status n = .pending) ∧
  (∀ n, n ∉ done → ctx.node_status n = .pending)

/-! ## Basic context lemmas -/

theorem node_status_set_node_status (n : String) (s : ExecutionStatus)
    (ctx : ExecutionContext) (m : String) :
    (set_node_status n s ctx).node_status m
      = if m = n then s else ctx.node_status m := rfl

theorem metrics_set_node_status (n : String) (s : ExecutionStatus)
    (ctx : ExecutionContext) :
    (set_node_status n s ctx).metrics = ctx.metrics := rfl

theorem status_set_node_status (n : String) (s : ExecutionStatus)
    (ctx : ExecutionContext) :
    (set_node_status n s ctx).status = ctx.status := rfl

theorem status_set_node_result (n : String) (r : List (String × Val))
    (ctx : ExecutionContext) :
    (set_node_result n r ctx).status = ctx.status := by
  unfold set_node_result
  dsimp only
  split <;> rfl

theorem node_status_set_node_result (n : String) (r : List (String × Val))
    (ctx : ExecutionContext) (m : String) :
    (set_node_result n r ctx).node_status m = ctx.node_status m := by
  unfold set_node_result
  dsimp only
  split <;> rfl

/-- `set_node_result` bumps no counter unless the node's status is already
`completed` or `failed`. -/
theorem metrics_set_node_result_of_running (n : String)
    (r : List (String × Val)) (ctx : ExecutionContext)
    (h : ctx.node_status n = .running) :
    (set_node_result n r ctx).metrics = ctx.metrics := by
  unfold set_node_result
  dsimp only
  split
  · next heq => simp only [get_node_status] at heq; rw [h] at heq; cases heq
  · next heq => simp only [get_node_status] at heq; rw [h] at heq; cases heq
  · rfl

/-- `set_node_result` on a node already marked `failed` bumps exactly
`nodes_failed`. -/
theorem metrics_set_node_result_of_failed (n : String)
    (r : List (String × Val)) (ctx : ExecutionContext)
    (h : ctx.node_status n = .failed) :
    (set_node_result n r ctx).metrics
      = { nodes_executed := ctx.metrics.nodes_executed
          nodes_failed := ctx.metrics.nodes_failed + 1 } := by
  unfold set_node_result
  dsimp only
  split
  · next heq => simp only [get_node_status] at heq; rw [h] at heq; cases heq
  · rfl
  · next hne _ heq =>
    simp only [get_node_status] at heq
    exact absurd h heq

theorem metrics_stop_execution (reason : String) (ctx : ExecutionContext) :
    (stop_execution reason ctx).metrics = ctx.metrics := rfl

theorem metrics_complete_execution (success : Bool) (error : Option String)
    (ctx : ExecutionContext) :
    (complete_execution success error ctx).metrics = ctx.metrics := rfl

/-- `_execute_single_node` never changes the `nodes_executed` counter: on
success the result is stored while the node is still `running` (so
`set_node_result` does not count it), and on failure only `nodes_failed`
is bumped. -/
theorem execute_single_node_nodes_executed (nodeType : String → String)
    (procs : String → List (String × Val) → Except String (List (String × Val)))
    (depGraph : String → List String) (ctx : ExecutionContext) (n : String) :
    (execute_single_node nodeType procs depGraph ctx n).metrics.nodes_executed
      = ctx.metrics.nodes_executed := by
  unfold execute_single_node
  dsimp only
  split
  · rfl
  · have hrun : (set_node_status n .running ctx).node_status n = .running := by
      simp [node_status_set_node_status]
    have hfail : (set_node_status n .failed
        (set_node_status n .running ctx)).node_status n = .failed := by
      simp [node_status_set_node_status]
    split
    · simp only [metrics_set_node_status,
        metrics_set_node_result_of_running _ _ _ hrun]
    · split
      · simp only [metrics_stop_execution, metrics_set_node_status,
          metrics_set_node_result_of_failed _ _ _ hfail]
      · simp only [metrics_set_node_status,
          metrics_set_node_result_of_failed _ _ _ hfail]

theorem execute_level_sequential_nodes_executed (nodeType : String → String)
    (procs : String → List (String × Val) → Except String (List (String × Val)))
    (depGraph : String → List String) (level : List String)
    (ctx : ExecutionContext) :
    (execute_level_sequential nodeType procs depGraph level
        ctx).metrics.nodes_executed = ctx.metrics.nodes_executed := by
  induction level generalizing ctx with
  | nil => rfl
  | cons n rest ih =>
    unfold execute_level_sequential at ih ⊢
    simp only [List.foldl_cons]
    rw [ih]
    split
    · rfl
    · exact execute_single_node_nodes_executed nodeType procs depGraph ctx n

theorem execute_sequential_nodes_executed (nodeType : String → String)
    (procs : String → List (String × Val) → Except String (List (String × Val)))
    (depGraph : String → List String) (levels : List (List String))
    (ctx : ExecutionContext) :
    (execute_sequential nodeType procs depGraph levels
        ctx).metrics.nodes_executed = ctx.metrics.nodes_executed := by
  unfold execute_sequential
  dsimp only
  rw [metrics_complete_execution]
  induction levels generalizing ctx with
  | nil => rfl
  | cons lv rest ih =>
    simp only [List.foldl_cons]
    rw [ih]
    split
    · rfl
    · exact execute_level_sequential_nodes_executed nodeType procs depGraph
        lv ctx

/-- C9 — the aggregate metric `nodes_executed` never moves (the scheduler
stores a successful node's result while that node is still `running`, and
`set_node_result` counts only nodes already `completed`), while a
processor failure does bump `nodes_failed` (the `failed` status is set
before the error result is stored). -/
theorem c9_metrics_accounting :
    (∀ (nodeType : String → String)
       (procs : String → List (String × Val) →
         Except String (List (String × Val)))
       (depGraph : String → List String) (levels : List (List String))
       (ctx : ExecutionContext),
       (execute_sequential nodeType procs depGraph levels
           ctx).metrics.nodes_executed = ctx.metrics.nodes_executed) ∧
    (∀ (nodeType : String → String)
       (procs : String → List (String × Val) →
         Except String (List (String × Val)))
       (depGraph : String → List String) (ctx : ExecutionContext)
       (n : String) (msg : String),
       can_execute_node ctx n depGraph = true →
       procs n (get_node_input_data (set_node_status n .running ctx)
         depGraph n) = .error msg →
       (execute_single_node nodeType procs depGraph ctx
           n).metrics.nodes_failed = ctx.metrics.nodes_failed + 1 ∧
       (execute_single_node nodeType procs depGraph ctx
           n).metrics.nodes_executed = ctx.metrics.nodes_executed) := by
  constructor
  · exact execute_sequential_nodes_executed
  · intro nodeType procs depGraph ctx n msg hcan hp
    refine ⟨?_, execute_single_node_nodes_executed nodeType procs depGraph
      ctx n⟩
    unfold execute_single_node
    dsimp only
    rw [hcan]
    simp only [Bool.not_true, Bool.false_eq_true, if_false, hp]
    have hfail : (set_node_status n .failed
        (set_node_status n .running ctx)).node_status n = .failed := by
      simp [node_status_set_node_status]
    split
    · simp only [metrics_stop_execution, metrics_set_node_status,
        metrics_set_node_result_of_failed _ _ _ hfail]
    · simp only [metrics_set_node_status,
        metrics_set_node_result_of_failed _ _ _ hfail]

/-- Witness for C9 at a concrete run: a one-node flow whose processor
succeeds leaves `nodes_executed` untouched, and a failing processor bumps
`nodes_failed` from `0` to `1`. -/
theorem c9_metrics_accounting_witness :
    (execute_sequential (fun _ => "slider") (fun _ _ => .ok [])
        (fun _ => []) [["a"]]
        (start_execution initContext)).metrics.nodes_executed
      = (start_execution initContext).metrics.nodes_executed ∧
    (execute_single_node (fun _ => "slider") (fun _ _ => .error "boom")
        (fun _ => []) (start_execution initContext)
        "a").metrics.nodes_failed
      = (start_execution initContext).metrics.nodes_failed + 1 := by
  refine ⟨c9_metrics_accounting.1 _ _ _ _ _, ?_⟩
  exact (c9_metrics_accounting.2 (fun _ => "slider")
    (fun _ _ => .error "boom") (fun _ => [])
    (start_execution initContext) "a" "boom" rfl rfl).1

/-- C3 — refuted by the code: `stop_execution` does set `STOPPED` and
record the reason, but the sequential scheduler then *unconditionally*
calls `complete_execution(success=True)`, which overwrites the status with
`COMPLETED` and the recorded reason with `None`, so `STOPPED` is not
terminal and a stopped run ends up reporting `COMPLETED`. -/
theorem c3_stop_overwritten_by_completion :
    (stop_execution "user requested stop"
        (start_execution initContext)).status = .stopped ∧
    (stop_execution "user requested stop"
        (start_execution initContext)).error_message
      = some "user requested stop" ∧
    (execute_sequential (fun _ => "slider") (fun _ _ => .ok [])
        (fun _ => []) [["x"]]
        (stop_execution "user requested stop"
          (start_execution initContext))).status = .completed ∧
    (execute_sequential (fun _ => "slider") (fun _ _ => .ok [])
        (fun _ => []) [["x"]]
        (stop_execution "user requested stop"
          (start_execution initContext))).error_message = none :=
  ⟨rfl, rfl, rfl, rfl⟩

/-- C4 — refuted by the code: with the run-level status `PAUSED`,
`can_execute_node` still returns `True` for a fresh node with no
prerequisites, because `is_running` counts `PAUSED` as running. -/
theorem c4_counterexample_paused_can_execute :
    (pause_execution (start_execution initContext)).status = .paused ∧
    can_execute_node (pause_execution (start_execution initContext)) "n"
      (fun _ => []) = true :=
  ⟨rfl, rfl⟩

/-- C4 (amended) — `can_execute_node` permits node execution in exactly the
`RUNNING` and `PAUSED` run states: it returns `True` iff the run status is
`RUNNING` or `PAUSED`, the node is neither `completed` nor `running`, and
every prerequisite is `completed`; so pausing does not prevent a node from
starting. -/
theorem c4_can_execute_node_iff (ctx : ExecutionContext) (n : String)
    (depGraph : String → List String) :
    can_execute_node ctx n depGraph = true ↔
      ((ctx.status = .running ∨ ctx.status = .paused) ∧
       get_node_status ctx n ≠ .completed ∧
       get_node_status ctx n ≠ .running ∧
       ∀ p ∈ depGraph n, get_node_status ctx p = .completed) := by
  simp only [can_execute_node, is_running, Bool.and_eq_true, Bool.or_eq_true,
    beq_iff_eq, Bool.not_eq_true', Bool.or_eq_false_iff, beq_eq_false_iff_ne,
    List.all_eq_true, and_assoc]

/-- C6 — refuted by the code: feeding `1` then `2` to a moving-average
processor with window size `2` leaves a two-element window after the
*second* execution, so `window_full` is already `true` there (the claim
asserts `false`). -/
theorem c6_counterexample_window_full_second :
    (movingAverageExecute 2 [] [("value", Val.num 1)]).toOption.map Prod.snd
      = some [1] ∧
    ((movingAverageExecute 2 [1] [("value", Val.num 2)]).toOption.bind
      (fun r => lookupA "window_full" r.1)) = some (Val.bool true) ∧
    Val.bool true ≠ Val.bool false :=
  ⟨rfl, rfl, by simp⟩

/-- C6 (amended) — executing the moving-average processor with window size
`2` on the values `1`, `2`, `3` in sequence yields outputs `1`, `3/2`,
`5/2`, with `window_full` equal to `false`, `true`, `true` (the window
already holds two values after the second execution). -/
theorem c6_moving_average_sequence :
    ∃ r₁ w₁ r₂ w₂ r₃ w₃,
      movingAverageExecute 2 [] [("value", Val.num 1)] = .ok (r₁, w₁) ∧
      movingAverageExecute 2 w₁ [("value", Val.num 2)] = .ok (r₂, w₂) ∧
      movingAverageExecute 2 w₂ [("value", Val.num 3)] = .ok (r₃, w₃) ∧
      lookupA "output" r₁ = some (Val.num 1) ∧
      lookupA "output" r₂ = some (Val.num (3 / 2)) ∧
      lookupA "output" r₃ = some (Val.num (5 / 2)) ∧
      lookupA "window_full" r₁ = some (Val.bool false) ∧
      lookupA "window_full" r₂ = some (Val.bool true) ∧
      lookupA "window_full" r₃ = some (Val.bool true) := by
  exact ⟨_, [1], _, [1, 2], _, [2, 3], rfl, rfl, rfl,
    by norm_num [lookupA], by norm_num [lookupA], by norm_num [lookupA],
    rfl, rfl, rfl⟩

/-- C10 — confirmed: because the input is read as
`input_data.get('output') or input_data.get('value')`, an input whose
`'output'` entry is the falsy number `0` (with no `'value'` key) makes the
moving-average, min/max, digital-output and analog-output processors all
raise the "no value provided" `ExecutionError`; the boolean `False`
behaves the same way. -/
theorem c10_falsy_output_rejected :
    movingAverageExecute 2 [] [("output", Val.num 0)]
      = .error "No value provided for moving average calculation" ∧
    minMaxExecute "both" none ⟨none, none, []⟩ [("output", Val.num 0)]
      = .error "No value provided for min/max calculation" ∧
    digitalOutputExecute false [("output", Val.num 0)]
      = .error "No value provided for digital output" ∧
    analogOutputExecute 0 255 8 [("output", Val.num 0)]
      = .error "No value provided for analog output" ∧
    movingAverageExecute 2 [] [("output", Val.bool false)]
      = .error "No value provided for moving average calculation" ∧
    getInputValue [("output", Val.num 0)] = none :=
  ⟨rfl, rfl, rfl, rfl, rfl, rfl⟩

/-! ## C8: level sizes and the parallelism factor -/

theorem le_foldl_max (l : List Nat) (a : Nat) : a ≤ l.foldl Nat.max a := by
  induction l generalizing a with
  | nil => exact Nat.le_refl a
  | cons h t ih => exact Nat.le_trans (Nat.le_max_left a h) (ih (Nat.max a h))

theorem mem_le_foldl_max (l : List Nat) (a x : Nat) (hx : x ∈ l) :
    x ≤ l.foldl Nat.max a := by
  induction l generalizing a with
  | nil => cases hx
  | cons h t ih =>
    rcases List.mem_cons.mp hx with rfl | hx'
    · exact Nat.le_trans (Nat.le_max_right a x) (le_foldl_max t (Nat.max a x))
    · exact ih (Nat.max a h) hx'

theorem foldl_max_eq_init_or_mem (l : List Nat) (a : Nat) :
    l.foldl Nat.max a = a ∨ l.foldl Nat.max a ∈ l := by
  induction l generalizing a with
  | nil => exact Or.inl rfl
  | cons h t ih =>
    rcases ih (Nat.max a h) with heq | hmem
    · rcases Nat.le_total a h with hc | hc
      · refine Or.inr ?_
        have hmx : Nat.max a h = h := Nat.max_eq_right hc
        rw [List.foldl_cons, heq, hmx]
        exact List.mem_cons_self _ _
      · refine Or.inl ?_
        have hmx : Nat.max a h = a := Nat.max_eq_left hc
        rw [List.foldl_cons, heq, hmx]
    · exact Or.inr (List.mem_cons_of_mem _ hmem)

/-- Extract what a successful `_topological_sort` guarantees by its own
defensive check: the emitted level sizes sum to the node count. -/
theorem topological_sort_ok_sum (nodes : List String)
    (edges : List (String × String)) (levels : List (List String))
    (h : topological_sort nodes edges = .ok levels) :
    (levels.map List.length).sum = nodes.length := by
  unfold topological_sort at h
  dsimp only at h
  split at h
  · next hsum => cases h; exact hsum
  · cases h

/-- A successful `resolve_dependencies` is a successful
`_topological_sort` (the cycle-detection branch raises). -/
theorem resolve_ok_topological_sort (nodes : List String)
    (edges : List (String × String)) (levels : List (List String))
    (h : resolve_dependencies nodes edges = .ok levels) :
    topological_sort nodes edges = .ok levels := by
  unfold resolve_dependencies at h
  dsimp only at h
  split at h
  · cases h
  · exact h

/-- C8 — confirmed: whenever dependency resolution succeeds, the level
sizes sum to the total node count, and `analyze_parallelism` reports
`parallelism_factor = max_level_size / total_nodes` where
`max_level_size` genuinely bounds (and is attained by) the level sizes;
with no nodes the factor is `0`. -/
theorem c8_parallelism_factor (nodes : List String)
    (edges : List (String × String)) (levels : List (List String))
    (h : resolve_dependencies nodes edges = .ok levels) :
    (levels.map List.length).sum = nodes.length ∧
    (0 < nodes.length →
      (analyze_parallelism nodes levels).parallelism_factor
        = (pyMaxNat (levels.map List.length) : ℚ) / (nodes.length : ℚ) ∧
      (∀ lv ∈ levels, lv.length ≤ pyMaxNat (levels.map List.length)) ∧
      ∃ lv ∈ levels, lv.length = pyMaxNat (levels.map List.length)) ∧
    (nodes.length = 0 →
      (analyze_parallelism nodes levels).parallelism_factor = 0) := by
  have hsum := topological_sort_ok_sum nodes edges levels
    (resolve_ok_topological_sort nodes edges levels h)
  refine ⟨hsum, ?_, ?_⟩
  · intro hpos
    have hne : levels ≠ [] := by
      intro hnil
      rw [hnil] at hsum
      simp at hsum
      omega
    have hempty : levels.isEmpty = false := by
      cases levels with
      | nil => exact absurd rfl hne
      | cons a b => rfl
    refine ⟨?_, ?_, ?_⟩
    · unfold analyze_parallelism
      dsimp only
      rw [hempty]
      simp only [Bool.false_eq_true, if_false, if_pos hpos]
    · intro lv hlv
      exact mem_le_foldl_max _ 0 _ (List.mem_map_of_mem List.length hlv)
    · rcases foldl_max_eq_init_or_mem (levels.map List.length) 0 with h0 | hm
      · exfalso
        have hall : ∀ x ∈ levels.map List.length, x = 0 := by
          intro x hx
          have hle := mem_le_foldl_max (levels.map List.length) 0 x hx
          omega
        have : (levels.map List.length).sum = 0 := List.sum_eq_zero hall
        omega
      · rcases List.mem_map.mp hm with ⟨lv, hlv, hlen⟩
        exact ⟨lv, hlv, hlen⟩
  · intro h0
    unfold analyze_parallelism
    dsimp only
    rw [h0]
    simp

/-- Witness for C8 at a concrete flow: two nodes `a → b` resolve to levels
`[[a], [b]]`. -/
theorem c8_parallelism_factor_witness :
    (([["a"], ["b"]].map List.length).sum
      = (["a", "b"] : List String).length) ∧
    (0 < (["a", "b"] : List String).length →
      (analyze_parallelism ["a", "b"] [["a"], ["b"]]).parallelism_factor
        = (pyMaxNat ([["a"], ["b"]].map List.length) : ℚ)
          / ((["a", "b"] : List String).length : ℚ) ∧
      (∀ lv ∈ [["a"], ["b"]],
        lv.length ≤ pyMaxNat ([["a"], ["b"]].map List.length)) ∧
      ∃ lv ∈ [["a"], ["b"]],
        lv.length = pyMaxNat ([["a"], ["b"]].map List.length)) ∧
    ((["a", "b"] : List String).length = 0 →
      (analyze_parallelism ["a", "b"] [["a"], ["b"]]).parallelism_factor
        = 0) :=
  c8_parallelism_factor ["a", "b"] [("a", "b")] [["a"], ["b"]] (by rfl)

/-! ## Graph membership and chain helpers -/

theorem mem_dependencyGraph (edges : List (String × String)) (x y : String) :
    y ∈ dependencyGraph edges x ↔ (x, y) ∈ edges := by
  simp only [dependencyGraph, List.mem_map, List.mem_filter, beq_iff_eq]
  constructor
  · rintro ⟨⟨a, b⟩, ⟨hmem, rfl⟩, rfl⟩
    exact hmem
  · intro h
    exact ⟨(x, y), ⟨h, rfl⟩, rfl⟩

theorem mem_reverseGraph (edges : List (String × String)) (n p : String) :
    p ∈ reverseGraph edges n ↔ (p, n) ∈ edges := by
  simp only [reverseGraph, List.mem_map, List.mem_filter, beq_iff_eq]
  constructor
  · rintro ⟨⟨a, b⟩, ⟨hmem, rfl⟩, rfl⟩
    exact hmem
  · intro h
    exact ⟨(p, n), ⟨h, rfl⟩, rfl⟩

theorem chain'_append_singleton {R : String → String → Prop}
    {l : List String} {y : String} (hc : List.Chain' R l)
    (hlast : ∀ z, l.getLast? = some z → R z y) :
    List.Chain' R (l ++ [y]) := by
  rw [List.chain'_append]
  refine ⟨hc, List.chain'_singleton y, ?_⟩
  intro x hx z hz
  simp only [List.head?_cons, Option.mem_def, Option.some.injEq] at hz
  subst hz
  exact hlast x hx

theorem headD_append_of_ne_nil {l : List String} (h : l ≠ []) (y d : String) :
    (l ++ [y]).headD d = l.headD d := by
  cases l with
  | nil => exact absurd rfl h
  | cons a t => rfl

/-! ## C7: `_find_path` returns genuine paths, but BFS paths are shortest -/

theorem bfsNeighbors_spec (edges : List (String × String)) (start : String)
    (target node : String) (nbs path : List String)
    (queue : List (String × List String)) (visited : List String)
    (hpath : BfsEntryInv edges start (node, path))
    (hq : ∀ en ∈ queue, BfsEntryInv edges start en)
    (hnbs : ∀ nb ∈ nbs, EdgeAdj edges node nb) :
    (∀ found, bfsNeighbors target nbs path queue visited = .inl found →
       BfsEntryInv edges start (target, found)) ∧
    (∀ q₂, bfsNeighbors target nbs path queue visited = .inr q₂ →
       ∀ en ∈ q₂, BfsEntryInv edges start en) := by
  induction nbs generalizing queue with
  | nil =>
    constructor
    · intro found h
      cases h
    · intro q₂ h
      cases h
      exact hq
  | cons nb rest ih =>
    obtain ⟨hne, hchain, hhead, hlast⟩ := hpath
    have hext : BfsEntryInv edges start (nb, path ++ [nb]) := by
      refine ⟨by simp, ?_, ?_, ?_⟩
      · refine chain'_append_singleton hchain ?_
        intro z hz
        have h2 : path.getLastD "" = z := by
          rw [List.getLastD_eq_getLast?, hz]
          rfl
        have hzn : z = node := by
          rw [← h2]
          exact hlast
        subst hzn
        exact hnbs nb (List.mem_cons_self _ _)
      · rw [headD_append_of_ne_nil hne, hhead]
      · simp [List.getLastD_concat]
    simp only [bfsNeighbors]
    split
    · next heq =>
      subst heq
      constructor
      · intro found h
        cases h
        exact hext
      · intro q₂ h
        cases h
    · next hne' =>
      refine ih _ ?_ (fun nb' hnb' => hnbs nb' (List.mem_cons_of_mem _ hnb'))
      intro en hen
      by_cases hv : visited.contains nb
      · rw [if_pos hv] at hen
        exact hq en hen
      · rw [if_neg hv] at hen
        rcases List.mem_append.mp hen with h1 | h2
        · exact hq en h1
        · rcases List.mem_singleton.mp h2 with rfl
          exact hext

theorem findPathAux_spec (edges : List (String × String)) (start : String)
    (target : String) (fuel : Nat) (queue : List (String × List String))
    (visited : List String)
    (hq : ∀ en ∈ queue, BfsEntryInv edges start en) :
    findPathAux (dependencyGraph edges) target fuel queue visited ≠ [] →
    BfsEntryInv edges start
      (target, findPathAux (dependencyGraph edges) target fuel queue
        visited) := by
  induction fuel generalizing queue visited with
  | zero =>
    intro h
    exact absurd rfl h
  | succ fuel ih =>
    cases queue with
    | nil =>
      intro h
      exact absurd rfl h
    | cons en rest =>
      obtain ⟨node, path⟩ := en
      simp only [findPathAux]
      split
      · exact ih rest visited (fun e he => hq e (List.mem_cons_of_mem _ he))
      · have hpath := hq (node, path) (List.mem_cons_self _ _)
        have hrest : ∀ e ∈ rest, BfsEntryInv edges start e :=
          fun e he => hq e (List.mem_cons_of_mem _ he)
        have hnbs : ∀ nb ∈ dependencyGraph edges node,
            EdgeAdj edges node nb :=
          fun nb hnb => (mem_dependencyGraph edges node nb).mp hnb
        have hspec := bfsNeighbors_spec edges start target node
          (dependencyGraph edges node) path rest (node :: visited)
          hpath hrest hnbs
        cases hbn : bfsNeighbors target (dependencyGraph edges node) path
            rest (node :: visited) with
        | inl found =>
          intro _
          exact hspec.1 found hbn
        | inr q₂ =>
          exact ih q₂ (node :: visited) (hspec.2 q₂ hbn)

/-- Every nonempty result of `_find_path` is a genuine directed path from
`start` to `target`. -/
theorem find_path_spec (edges : List (String × String)) (start target : String)
    (h : find_path edges start target ≠ []) :
    find_path edges start target ≠ [] ∧
    List.Chain' (EdgeAdj edges) (find_path edges start target) ∧
    (find_path edges start target).headD "" = start ∧
    (find_path edges start target).getLastD "" = target := by
  unfold find_path at h ⊢
  split at h
  · next heq =>
    subst heq
    rw [if_pos rfl]
    exact ⟨by simp, List.chain'_singleton start, rfl, rfl⟩
  · next hne =>
    have hstart : BfsEntryInv edges start (start, [start]) :=
      ⟨by simp, List.chain'_singleton start, rfl, rfl⟩
    have := findPathAux_spec edges start target (edges.length + 2)
      [(start, [start])] []
      (by
        intro en hen
        rcases List.mem_singleton.mp hen with rfl
        exact hstart) h
    rw [if_neg hne]
    exact ⟨h, this.2.1, this.2.2.1, this.2.2.2⟩

theorem critical_fold_inner (edges : List (String × String))
    (starts0 ends0 : List String) (s : String) (hs : s ∈ starts0)
    (ends : List String) (hends : ∀ e ∈ ends, e ∈ ends0) :
    ∀ acc : List String × Nat,
      (acc.1 = [] ∨ (List.Chain' (EdgeAdj edges) acc.1 ∧
        acc.1.headD "" ∈ starts0 ∧ acc.1.getLastD "" ∈ ends0)) →
      ((ends.foldl (fun acc e =>
          let p := find_path edges s e
          if acc.2 < p.length then (p, p.length) else acc) acc).1 = [] ∨
       (List.Chain' (EdgeAdj edges)
          (ends.foldl (fun acc e =>
            let p := find_path edges s e
            if acc.2 < p.length then (p, p.length) else acc) acc).1 ∧
        (ends.foldl (fun acc e =>
            let p := find_path edges s e
            if acc.2 < p.length then (p, p.length) else acc) acc).1.headD ""
          ∈ starts0 ∧
        (ends.foldl (fun acc e =>
            let p := find_path edges s e
            if acc.2 < p.length then (p, p.length) else acc) acc).1.getLastD ""
          ∈ ends0)) := by
  induction ends with
  | nil =>
    intro acc hacc
    exact hacc
  | cons e rest ih =>
    intro acc hacc
    simp only [List.foldl_cons]
    refine ih (fun e' he' => hends e' (List.mem_cons_of_mem _ he')) _ ?_
    dsimp only
    split
    · next hlen =>
      have hne : find_path edges s e ≠ [] := by
        intro hnil
        rw [hnil] at hlen
        simp at hlen
      have hsp := find_path_spec edges s e hne
      exact Or.inr ⟨hsp.2.1, by rw [hsp.2.2.1]; exact hs,
        by rw [hsp.2.2.2]; exact hends e (List.mem_cons_self _ _)⟩
    · exact hacc

theorem critical_fold_outer (edges : List (String × String))
    (starts0 ends0 : List String) (starts : List String)
    (hstarts : ∀ s ∈ starts, s ∈ starts0) :
    ∀ acc : List String × Nat,
      (acc.1 = [] ∨ (List.Chain' (EdgeAdj edges) acc.1 ∧
        acc.1.headD "" ∈ starts0 ∧ acc.1.getLastD "" ∈ ends0)) →
      ((starts.foldl (fun acc s =>
          ends0.foldl (fun acc e =>
            let p := find_path edges s e
            if acc.2 < p.length then (p, p.length) else acc) acc) acc).1 = []
        ∨
       (List.Chain' (EdgeAdj edges)
          (starts.foldl (fun acc s =>
            ends0.foldl (fun acc e =>
              let p := find_path edges s e
              if acc.2 < p.length then (p, p.length) else acc) acc) acc).1 ∧
        (starts.foldl (fun acc s =>
            ends0.foldl (fun acc e =>
              let p := find_path edges s e
              if acc.2 < p.length then (p, p.length) else acc) acc)
            acc).1.headD "" ∈ starts0 ∧
        (starts.foldl (fun acc s =>
            ends0.foldl (fun acc e =>
              let p := find_path edges s e
              if acc.2 < p.length then (p, p.length) else acc) acc)
            acc).1.getLastD "" ∈ ends0)) := by
  induction starts with
  | nil =>
    intro acc hacc
    exact hacc
  | cons s rest ih =>
    intro acc hacc
    simp only [List.foldl_cons]
    refine ih (fun s' hs' => hstarts s' (List.mem_cons_of_mem _ hs')) _ ?_
    exact critical_fold_inner edges starts0 ends0 s
      (hstarts s (List.mem_cons_self _ _)) ends0 (fun e he => he) acc hacc

/-- C7 (amended) — every nonempty path returned by `get_critical_path` is
a genuine directed path from a first-level node to a last-level node; it
is the longest among the per-pair breadth-first-discovered paths the code
compares, but (see the counterexample) not necessarily a longest
first-level-to-last-level path of the graph. -/
theorem c7_critical_path_is_path (edges : List (String × String))
    (levels : List (List String))
    (h : get_critical_path edges levels ≠ []) :
    List.Chain' (EdgeAdj edges) (get_critical_path edges levels) ∧
    (get_critical_path edges levels).headD "" ∈ levels.headD [] ∧
    (get_critical_path edges levels).getLastD "" ∈ levels.getLastD [] := by
  unfold get_critical_path at h ⊢
  cases levels with
  | nil => exact absurd rfl h
  | cons lv rest =>
    have := critical_fold_outer edges ((lv :: rest).headD [])
      ((lv :: rest).getLastD []) ((lv :: rest).headD [])
      (fun s hs => hs) (([] : List String), 0) (Or.inl rfl)
    rcases this with h0 | hgood
    · exact absurd h0 h
    · exact hgood

/-- C7 — refuted by the code: on the graph `A→B, A→C, B→C` the
breadth-first `_find_path` finds the two-edge-short path `[A, C]`, so
`get_critical_path` returns a path of length `2` although `[A, B, C]` is a
directed first-level-to-last-level path of length `3`. -/
theorem c7_counterexample_shortest_path :
    resolve_dependencies ["A", "B", "C"] [("A", "B"), ("A", "C"), ("B", "C")]
      = .ok [["A"], ["B"], ["C"]] ∧
    get_critical_path [("A", "B"), ("A", "C"), ("B", "C")]
      [["A"], ["B"], ["C"]] = ["A", "C"] ∧
    List.Chain' (EdgeAdj [("A", "B"), ("A", "C"), ("B", "C")])
      ["A", "B", "C"] ∧
    "A" ∈ ([["A"], ["B"], ["C"]] : List (List String)).headD [] ∧
    "C" ∈ ([["A"], ["B"], ["C"]] : List (List String)).getLastD [] ∧
    (get_critical_path [("A", "B"), ("A", "C"), ("B", "C")]
        [["A"], ["B"], ["C"]]).length
      < (["A", "B", "C"] : List String).length := by
  refine ⟨by rfl, by rfl, ?_, by simp, by simp, by decide⟩
  simp [EdgeAdj]

/-- Witness for the amended C7 on the same concrete graph. -/
theorem c7_critical_path_is_path_witness :
    get_critical_path [("A", "B"), ("A", "C"), ("B", "C")]
      [["A"], ["B"], ["C"]] ≠ [] ∧
    (List.Chain' (EdgeAdj [("A", "B"), ("A", "C"), ("B", "C")])
      (get_critical_path [("A", "B"), ("A", "C"), ("B", "C")]
        [["A"], ["B"], ["C"]]) ∧
    (get_critical_path [("A", "B"), ("A", "C"), ("B", "C")]
        [["A"], ["B"], ["C"]]).headD ""
      ∈ ([["A"], ["B"], ["C"]] : List (List String)).headD [] ∧
    (get_critical_path [("A", "B"), ("A", "C"), ("B", "C")]
        [["A"], ["B"], ["C"]]).getLastD ""
      ∈ ([["A"], ["B"], ["C"]] : List (List String)).getLastD []) :=
  ⟨by decide, c7_critical_path_is_path [("A", "B"), ("A", "C"), ("B", "C")]
    [["A"], ["B"], ["C"]] (by decide)⟩

/-! ## Cycle and chain helper lemmas for the DFS proofs -/

theorem chain_pred {R : String → String → Prop} :
    ∀ (l : List String) (a : String), List.Chain R a l →
      ∀ b ∈ l, ∃ c, (c = a ∨ c ∈ l) ∧ R c b := by
  intro l
  induction l with
  | nil =>
    intro a _ b hb
    cases hb
  | cons h t ih =>
    intro a hc b hb
    rw [List.chain_cons] at hc
    rcases List.mem_cons.mp hb with rfl | hbt
    · exact ⟨a, Or.inl rfl, hc.1⟩
    · rcases ih h hc.2 b hbt with ⟨c, hc', hR⟩
      rcases hc' with rfl | hct
      · exact ⟨c, Or.inr (List.mem_cons_self _ _), hR⟩
      · exact ⟨c, Or.inr (List.mem_cons_of_mem _ hct), hR⟩

/-- Every node on a cycle has a predecessor on the cycle. -/
theorem cycleAt_pred (edges : List (String × String)) (x : String)
    (rest : List String) (hc : CycleAt edges x rest) :
    ∀ v ∈ x :: rest, ∃ y ∈ x :: rest, EdgeAdj edges y v := by
  intro v hv
  have hv' : v ∈ rest ++ [x] := by
    rcases List.mem_cons.mp hv with rfl | hvr
    · exact List.mem_append.mpr (Or.inr (List.mem_singleton.mpr rfl))
    · exact List.mem_append.mpr (Or.inl hvr)
  rcases chain_pred (rest ++ [x]) x hc v hv' with ⟨c, hc', hR⟩
  refine ⟨c, ?_, hR⟩
  rcases hc' with rfl | hcm
  · exact List.mem_cons_self _ _
  · rcases List.mem_append.mp hcm with h1 | h2
    · exact List.mem_cons_of_mem _ h1
    · rcases List.mem_singleton.mp h2 with rfl
      exact List.mem_cons_self _ _

theorem chain_append_singleton {R : String → String → Prop} :
    ∀ (l : List String) (x y : String), List.Chain R x l →
      (∀ z, (x :: l).getLast? = some z → R z y) →
      List.Chain R x (l ++ [y]) := by
  intro l
  induction l with
  | nil =>
    intro x y _ hlast
    exact List.Chain.cons (hlast x rfl) List.Chain.nil
  | cons h t ih =>
    intro x y hc hlast
    rw [List.chain_cons] at hc
    rw [List.cons_append, List.chain_cons]
    refine ⟨hc.1, ih h y hc.2 ?_⟩
    intro z hz
    apply hlast
    rw [List.getLast?_cons_cons]
    exact hz

theorem dropWhile_mem_decomp (a : String) :
    ∀ l : List String, a ∈ l →
      ∃ l₁ l₂, l = l₁ ++ a :: l₂ ∧
        l.dropWhile (fun x => x != a) = a :: l₂ := by
  intro l
  induction l with
  | nil =>
    intro h
    cases h
  | cons b t ih =>
    intro h
    by_cases hba : b = a
    · subst hba
      exact ⟨[], t, rfl, by simp [List.dropWhile]⟩
    · have hat : a ∈ t := by
        rcases List.mem_cons.mp h with rfl | ht
        · exact absurd rfl hba
        · exact ht
      rcases ih hat with ⟨l₁, l₂, heq, hdw⟩
      refine ⟨b :: l₁, l₂, by rw [heq, List.cons_append], ?_⟩
      rw [List.dropWhile_cons]
      simp only [bne_iff_ne, ne_eq, hba, not_false_eq_true, if_true]
      exact hdw

/-! ## Coloring lemmas -/

theorem countP_mono_of {α : Type} (p q : α → Bool) :
    ∀ l : List α, (∀ x ∈ l, p x = true → q x = true) →
      l.countP p ≤ l.countP q := by
  intro l
  induction l with
  | nil =>
    intro _
    exact Nat.le_refl 0
  | cons a t ih =>
    intro h
    rw [List.countP_cons, List.countP_cons]
    have ht := ih (fun x hx => h x (List.mem_cons_of_mem _ hx))
    by_cases hpa : p a = true
    · rw [hpa, h a (List.mem_cons_self _ _) hpa]
      omega
    · rw [Bool.not_eq_true] at hpa
      rw [hpa]
      simp only [Bool.false_eq_true, if_false]
      omega

theorem countP_congr_of {α : Type} (p q : α → Bool) :
    ∀ l : List α, (∀ x ∈ l, p x = q x) → l.countP p = l.countP q := by
  intro l
  induction l with
  | nil =>
    intro _
    rfl
  | cons a t ih =>
    intro h
    rw [List.countP_cons, List.countP_cons,
      ih (fun x hx => h x (List.mem_cons_of_mem _ hx)),
      h a (List.mem_cons_self _ _)]

theorem whiteCount_pos (nodes : List String) (colors : Coloring) (v : String)
    (hv : v ∈ nodes) (hw : colors v = .white) :
    0 < whiteCount nodes colors := by
  unfold whiteCount
  rw [List.countP_pos_iff]
  exact ⟨v, hv, by simp [hw]⟩

theorem whiteCount_mono (nodes : List String) (colors colors₂ : Coloring)
    (h : ∀ x, colors₂ x = .white → colors x = .white) :
    whiteCount nodes colors₂ ≤ whiteCount nodes colors := by
  unfold whiteCount
  refine countP_mono_of _ _ nodes ?_
  intro x _ hx
  simp only [beq_iff_eq] at hx ⊢
  exact h x hx

theorem whiteCount_updC_gray (nodes : List String) (colors : Coloring)
    (v : String) (hnd : nodes.Nodup) (hv : v ∈ nodes)
    (hw : colors v = .white) :
    whiteCount nodes (updC colors v .gray) + 1 = whiteCount nodes colors := by
  unfold whiteCount
  induction nodes with
  | nil => cases hv
  | cons a t ih =>
    rw [List.countP_cons, List.countP_cons]
    rcases List.mem_cons.mp hv with rfl | hvt
    · have hvt' : v ∉ t := (List.nodup_cons.mp hnd).1
      have hsame : t.countP (fun n => updC colors v .gray n == Color.white)
          = t.countP (fun n => colors n == Color.white) := by
        refine countP_congr_of _ _ t ?_
        intro x hx
        have hxv : x ≠ v := fun hxv => hvt' (hxv ▸ hx)
        simp [updC, hxv]
      rw [hsame]
      simp [updC, hw]
    · have hnd' := (List.nodup_cons.mp hnd).2
      by_cases hav : a = v
      · subst hav
        exact absurd hvt (List.nodup_cons.mp hnd).1
      · have hupd : updC colors v .gray a = colors a := by
          simp [updC, hav]
        rw [hupd]
        have hih := ih hnd' hvt
        omega

theorem updC_ne (colors : Coloring) (v : String) (c : Color) (x : String)
    (h : x ≠ v) : updC colors v c x = colors x := by
  simp [updC, h]

theorem updC_self (colors : Coloring) (v : String) (c : Color) :
    updC colors v c v = c := by
  simp [updC]

theorem colorInv_updC_gray (nodes : List String)
    (edges : List (String × String)) (colors : Coloring) (v : String)
    (hinv : ColorInv nodes edges colors) (hw : colors v = .white)
    (hv : v ∈ nodes) :
    ColorInv nodes edges (updC colors v .gray) := by
  refine ⟨?_, ?_, ?_⟩
  · intro x hx
    by_cases hxv : x = v
    · exact hxv ▸ hv
    · rw [updC_ne colors v _ x hxv] at hx
      exact hinv.coloredSub x hx
  · intro x hx y hy
    have hxv : x ≠ v := by
      intro hxv
      rw [hxv, updC_self] at hx
      cases hx
    rw [updC_ne colors v _ x hxv] at hx
    have hyb := hinv.blackClosed x hx y hy
    have hyv : y ≠ v := by
      intro hyv
      rw [hyv, hw] at hyb
      cases hyb
    rw [updC_ne colors v _ y hyv]
    exact hyb
  · intro c₀ crest hc hblack
    obtain ⟨hb0, hbrest⟩ := hblack
    have h0v : c₀ ≠ v := by
      intro h0v
      rw [h0v, updC_self] at hb0
      cases hb0
    rw [updC_ne colors v _ c₀ h0v] at hb0
    refine hinv.noBlackCycle c₀ crest hc ⟨hb0, ?_⟩
    intro y hy
    have hyv : y ≠ v := by
      intro hyv
      have := hbrest y hy
      rw [hyv, updC_self] at this
      cases this
    have := hbrest y hy
    rw [updC_ne colors v _ y hyv] at this
    exact this

theorem colorInv_updC_black (nodes : List String)
    (edges : List (String × String)) (colors : Coloring) (v : String)
    (hinv : ColorInv nodes edges colors) (hg : colors v = .gray)
    (hnb : ∀ y ∈ dependencyGraph edges v, colors y = .black)
    (hv : v ∈ nodes) :
    ColorInv nodes edges (updC colors v .black) := by
  refine ⟨?_, ?_, ?_⟩
  · intro x hx
    by_cases hxv : x = v
    · exact hxv ▸ hv
    · rw [updC_ne colors v _ x hxv] at hx
      exact hinv.coloredSub x hx
  · intro x hx y hy
    by_cases hxv : x = v
    · subst hxv
      have hyb := hnb y hy
      have hyv : y ≠ x := by
        intro hyv
        rw [hyv, hg] at hyb
        cases hyb
      rw [updC_ne colors x _ y hyv]
      exact hyb
    · rw [updC_ne colors v _ x hxv] at hx
      have hyb := hinv.blackClosed x hx y hy
      have hyv : y ≠ v := by
        intro hyv
        rw [hyv, hg] at hyb
        cases hyb
      rw [updC_ne colors v _ y hyv]
      exact hyb
  · intro c₀ crest hc hblack
    obtain ⟨hb0, hbrest⟩ := hblack
    by_cases hvc : v ∈ c₀ :: crest
    · exfalso
      rcases cycleAt_pred edges c₀ crest hc v hvc with ⟨y, hy, hR⟩
      have hvy : v ∈ dependencyGraph edges y :=
        (mem_dependencyGraph edges y v).mpr hR
      by_cases hyv : y = v
      · rw [hyv] at hvy
        have hb := hnb v hvy
        rw [hg] at hb
        cases hb
      · have hyb : colors y = .black := by
          have hyb' : updC colors v Color.black y = .black := by
            rcases List.mem_cons.mp hy with rfl | hyr
            · exact hb0
            · exact hbrest y hyr
          rw [updC_ne colors v _ y hyv] at hyb'
          exact hyb'
        have hvb := hinv.blackClosed y hyb v hvy
        rw [hg] at hvb
        cases hvb
    · have h0v : c₀ ≠ v := fun h0v =>
        hvc (h0v ▸ List.mem_cons_self c₀ crest)
      rw [updC_ne colors v _ c₀ h0v] at hb0
      refine hinv.noBlackCycle c₀ crest hc ⟨hb0, ?_⟩
      intro y hy
      have hyv : y ≠ v := fun hyv =>
        hvc (hyv ▸ List.mem_cons_of_mem _ hy)
      have := hbrest y hy
      rw [updC_ne colors v _ y hyv] at this
      exact this

/-! ## The DFS specification

One induction on the fuel establishes, simultaneously, the behavior of
`dfsVisit` and of the neighbor loop `dfsNeighbors (dfsVisit _ fuel)`:
a reported cycle is a real cycle of the graph, and a finished call
blackens its node, restores the gray stack, and maintains `ColorInv`. -/

theorem dfs_spec (nodes : List String) (edges : List (String × String))
    (hnd : nodes.Nodup) (hvalid : EdgesValid nodes edges) (fuel : Nat) :
    (∀ colors node path,
      ColorInv nodes edges colors →
      whiteCount nodes colors < fuel →
      node ∈ nodes →
      (∀ x, colors x = .gray ↔ x ∈ path) →
      List.Chain' (EdgeAdj edges) path →
      (∀ z, path.getLast? = some z → EdgeAdj edges z node) →
      path.Nodup →
      (∀ c, dfsVisit (dependencyGraph edges) fuel colors node path
          = .cycleFound c → CycleReport edges c) ∧
      (∀ colors₂, dfsVisit (dependencyGraph edges) fuel colors node path
          = .finished colors₂ →
        DfsPost nodes edges path node colors colors₂)) ∧
    (∀ l colors path node,
      ColorInv nodes edges colors →
      whiteCount nodes colors < fuel →
      node ∈ nodes →
      (∀ x, colors x = .gray ↔ x ∈ path ++ [node]) →
      List.Chain' (EdgeAdj edges) (path ++ [node]) →
      (∀ y ∈ l, y ∈ dependencyGraph edges node) →
      (∀ y ∈ dependencyGraph edges node, y ∉ l → colors y = .black) →
      (path ++ [node]).Nodup →
      (∀ c, dfsNeighbors (dfsVisit (dependencyGraph edges) fuel) colors l
          (path ++ [node]) node = .cycleFound c → CycleReport edges c) ∧
      (∀ colors₂, dfsNeighbors (dfsVisit (dependencyGraph edges) fuel)
          colors l (path ++ [node]) node = .finished colors₂ →
        DfsPost nodes edges path node colors colors₂)) := by
  induction fuel with
  | zero =>
    constructor
    · intro colors node path _ hwc
      exact absurd hwc (Nat.not_lt_zero _)
    · intro l colors path node _ hwc
      exact absurd hwc (Nat.not_lt_zero _)
  | succ fuel ih =>
    have hP : ∀ colors node path,
        ColorInv nodes edges colors →
        whiteCount nodes colors < fuel + 1 →
        node ∈ nodes →
        (∀ x, colors x = .gray ↔ x ∈ path) →
        List.Chain' (EdgeAdj edges) path →
        (∀ z, path.getLast? = some z → EdgeAdj edges z node) →
        path.Nodup →
        (∀ c, dfsVisit (dependencyGraph edges) (fuel + 1) colors node path
            = .cycleFound c → CycleReport edges c) ∧
        (∀ colors₂, dfsVisit (dependencyGraph edges) (fuel + 1) colors node
            path = .finished colors₂ →
          DfsPost nodes edges path node colors colors₂) := by
      intro colors node path hinv hwc hnode hgray hchain hlast hnodup
      by_cases hg : colors node = Color.gray
      · have hred : dfsVisit (dependencyGraph edges) (fuel + 1) colors node
            path = .cycleFound (path.dropWhile (fun x => x != node)) := by
          simp only [dfsVisit, if_pos hg]
        constructor
        · intro c hc
          rw [hred] at hc
          injection hc with hc
          subst hc
          have hmem : node ∈ path := (hgray node).mp hg
          rcases dropWhile_mem_decomp node path hmem with ⟨l₁, l₂, hpeq, hdw⟩
          rw [hdw]
          refine ⟨node, l₂, rfl, ?_⟩
          have hsuffix : List.Chain' (EdgeAdj edges) (node :: l₂) := by
            rw [hpeq, List.chain'_append] at hchain
            exact hchain.2.1
          have hchain₀ : List.Chain (EdgeAdj edges) node l₂ := hsuffix
          refine chain_append_singleton l₂ node node hchain₀ ?_
          intro z hz
          refine hlast z ?_
          rw [hpeq]
          rw [List.getLast?_append_of_ne_nil l₁ (by simp)]
          exact hz
        · intro colors₂ hc
          rw [hred] at hc
          exact DfsResult.noConfusion hc
      · by_cases hb : colors node = Color.black
        · have hred : dfsVisit (dependencyGraph edges) (fuel + 1) colors node
              path = .finished colors := by
            simp only [dfsVisit, if_neg hg, if_pos hb]
          constructor
          · intro c hc
            rw [hred] at hc
            exact DfsResult.noConfusion hc
          · intro colors₂ hc
            rw [hred] at hc
            injection hc with hc
            subst hc
            exact ⟨hinv, hgray, hb, fun x h => h, fun x h => h⟩
        · have hw : colors node = Color.white := by
            cases hcol : colors node with
            | white => rfl
            | gray => exact absurd hcol hg
            | black => exact absurd hcol hb
          have hred : dfsVisit (dependencyGraph edges) (fuel + 1) colors node
              path = dfsNeighbors (dfsVisit (dependencyGraph edges) fuel)
                (updC colors node .gray) (dependencyGraph edges node)
                (path ++ [node]) node := by
            simp only [dfsVisit, if_neg hg, if_neg hb]
          have hinv' := colorInv_updC_gray nodes edges colors node hinv hw
            hnode
          have hdec := whiteCount_updC_gray nodes colors node hnd hnode hw
          have hwc' : whiteCount nodes (updC colors node .gray) < fuel := by
            omega
          have hnotin : node ∉ path := by
            intro hmem
            have := (hgray node).mpr hmem
            rw [hw] at this
            cases this
          have hgray' : ∀ x, updC colors node .gray x = .gray ↔
              x ∈ path ++ [node] := by
            intro x
            by_cases hxn : x = node
            · subst hxn
              simp [updC_self]
            · rw [updC_ne colors node _ x hxn]
              rw [List.mem_append, List.mem_singleton]
              constructor
              · intro h
                exact Or.inl ((hgray x).mp h)
              · intro h
                rcases h with h | h
                · exact (hgray x).mpr h
                · exact absurd h hxn
          have hchain' : List.Chain' (EdgeAdj edges) (path ++ [node]) :=
            chain'_append_singleton hchain hlast
          have hnodup' : (path ++ [node]).Nodup := by
            rw [List.nodup_append]
            refine ⟨hnodup, List.nodup_singleton node, ?_⟩
            intro a ha hb'
            rcases List.mem_singleton.mp hb' with rfl
            exact hnotin ha
          have hQf := ih.2 (dependencyGraph edges node)
            (updC colors node .gray) path node hinv' hwc' hnode hgray'
            hchain' (fun y hy => hy) (fun y hy hny => absurd hy hny) hnodup'
          constructor
          · intro c hc
            rw [hred] at hc
            exact hQf.1 c hc
          · intro colors₂ hc
            rw [hred] at hc
            obtain ⟨i2, g2, b2, bm2, wm2⟩ := hQf.2 colors₂ hc
            refine ⟨i2, g2, b2, ?_, ?_⟩
            · intro x hx
              have hxn : x ≠ node := by
                intro h
                rw [h, hw] at hx
                cases hx
              refine bm2 x ?_
              rw [updC_ne colors node _ x hxn]
              exact hx
            · intro x hx
              have hx' := wm2 x hx
              have hxn : x ≠ node := by
                intro h
                rw [h, updC_self] at hx'
                cases hx'
              rw [updC_ne colors node _ x hxn] at hx'
              exact hx'
    refine ⟨hP, ?_⟩
    intro l
    induction l with
    | nil =>
      intro colors path node hinv hwc hnode hgray hchain hnbs hblack hnodup
      have hg : colors node = Color.gray := (hgray node).mpr (by simp)
      have hnotin : node ∉ path := by
        rw [List.nodup_append] at hnodup
        intro hmem
        exact hnodup.2.2 hmem (List.mem_singleton.mpr rfl)
      have hred : dfsNeighbors (dfsVisit (dependencyGraph edges) (fuel + 1))
          colors [] (path ++ [node]) node
          = .finished (updC colors node .black) := rfl
      constructor
      · intro c hc
        rw [hred] at hc
        exact DfsResult.noConfusion hc
      · intro colors₂ hc
        rw [hred] at hc
        injection hc with hc
        subst hc
        refine ⟨colorInv_updC_black nodes edges colors node hinv hg
          (fun y hy => hblack y hy (List.not_mem_nil y)) hnode, ?_,
          updC_self colors node _, ?_, ?_⟩
        · intro x
          by_cases hxn : x = node
          · subst hxn
            rw [updC_self]
            constructor
            · intro h
              cases h
            · intro h
              exact absurd h hnotin
          · rw [updC_ne colors node _ x hxn]
            rw [hgray x, List.mem_append, List.mem_singleton]
            constructor
            · intro h
              rcases h with h | h
              · exact h
              · exact absurd h hxn
            · intro h
              exact Or.inl h
        · intro x hx
          by_cases hxn : x = node
          · subst hxn
            rw [updC_self]
          · rw [updC_ne colors node _ x hxn]
            exact hx
        · intro x hx
          by_cases hxn : x = node
          · rw [hxn, updC_self] at hx
            cases hx
          · rw [updC_ne colors node _ x hxn] at hx
            exact hx
    | cons nb rest ihl =>
      intro colors path node hinv hwc hnode hgray hchain hnbs hblack hnodup
      have hnbg : nb ∈ dependencyGraph edges node :=
        hnbs nb (List.mem_cons_self _ _)
      have hadj : EdgeAdj edges node nb :=
        (mem_dependencyGraph edges node nb).mp hnbg
      have hnbin : nb ∈ nodes := (hvalid (node, nb) hadj).2
      have hlast' : ∀ z, (path ++ [node]).getLast? = some z →
          EdgeAdj edges z nb := by
        intro z hz
        rw [List.getLast?_concat] at hz
        injection hz with hz
        subst hz
        exact hadj
      have hPnb := hP colors nb (path ++ [node]) hinv hwc hnbin hgray hchain
        hlast' hnodup
      cases hv : dfsVisit (dependencyGraph edges) (fuel + 1) colors nb
          (path ++ [node]) with
      | cycleFound c =>
        have hred : dfsNeighbors (dfsVisit (dependencyGraph edges) (fuel + 1))
            colors (nb :: rest) (path ++ [node]) node = .cycleFound c := by
          simp only [dfsNeighbors, hv]
        constructor
        · intro c' hc'
          rw [hred] at hc'
          injection hc' with hc'
          subst hc'
          exact hPnb.1 c hv
        · intro colors₂ hc
          rw [hred] at hc
          exact DfsResult.noConfusion hc
      | finished colorsb =>
        obtain ⟨invb, grayb, blackb, bmb, wmb⟩ := hPnb.2 colorsb hv
        have hred : dfsNeighbors (dfsVisit (dependencyGraph edges) (fuel + 1))
            colors (nb :: rest) (path ++ [node]) node
            = dfsNeighbors (dfsVisit (dependencyGraph edges) (fuel + 1))
              colorsb rest (path ++ [node]) node := by
          simp only [dfsNeighbors, hv]
        have hwcb : whiteCount nodes colorsb < fuel + 1 :=
          Nat.lt_of_le_of_lt (whiteCount_mono nodes colors colorsb wmb) hwc
        have hblackb : ∀ y ∈ dependencyGraph edges node, y ∉ rest →
            colorsb y = .black := by
          intro y hy hyrest
          by_cases hynb : y = nb
          · subst hynb
            exact blackb
          · refine bmb y (hblack y hy ?_)
            intro hmem
            rcases List.mem_cons.mp hmem with h | h
            · exact hynb h
            · exact hyrest h
        have hQr := ihl colorsb path node invb hwcb hnode grayb hchain
          (fun y hy => hnbs y (List.mem_cons_of_mem _ hy)) hblackb hnodup
        constructor
        · intro c hc
          rw [hred] at hc
          exact hQr.1 c hc
        · intro colors₂ hc
          rw [hred] at hc
          obtain ⟨i2, g2, b2, bm2, wm2⟩ := hQr.2 colors₂ hc
          exact ⟨i2, g2, b2, fun x hx => bm2 x (bmb x hx),
            fun x hx => wmb x (wm2 x hx)⟩

/-! ## `detect_cycles`: soundness and completeness -/

theorem detectCyclesLoop_spec (nodes : List String)
    (edges : List (String × String)) (hnd : nodes.Nodup)
    (hvalid : EdgesValid nodes edges) (fuel : Nat) :
    ∀ (l : List String) (colors : Coloring),
      (∀ x ∈ l, x ∈ nodes) →
      ColorInv nodes edges colors →
      whiteCount nodes colors < fuel →
      (∀ x, colors x ≠ .gray) →
      (∀ c, detectCyclesLoop (dependencyGraph edges) fuel l colors
          = (true, c) → CycleReport edges c) ∧
      (∀ res, detectCyclesLoop (dependencyGraph edges) fuel l colors
          = (false, res) →
        ∃ colors₂, ColorInv nodes edges colors₂ ∧
          (∀ x ∈ l, colors₂ x = .black) ∧
          (∀ x, colors x = .black → colors₂ x = .black)) := by
  intro l
  induction l with
  | nil =>
    intro colors _ hinv _ _
    constructor
    · intro c hc
      rw [show detectCyclesLoop (dependencyGraph edges) fuel [] colors
          = (false, []) from rfl] at hc
      cases hc
    · intro res _
      exact ⟨colors, hinv, fun x hx => absurd hx (List.not_mem_nil x),
        fun x hx => hx⟩
  | cons n rest ihl =>
    intro colors hsub hinv hwc hnogray
    have hn : n ∈ nodes := hsub n (List.mem_cons_self _ _)
    by_cases hwn : colors n = Color.white
    · have hgray0 : ∀ x, colors x = .gray ↔ x ∈ ([] : List String) := by
        intro x
        constructor
        · intro h
          exact absurd h (hnogray x)
        · intro h
          cases h
      have hPn := (dfs_spec nodes edges hnd hvalid fuel).1 colors n []
        hinv hwc hn hgray0 (by exact trivial)
        (fun z hz => by cases hz) List.nodup_nil
      have hnotblack : colors n ≠ Color.black := by
        rw [hwn]
        intro h
        cases h
      have hred : detectCyclesLoop (dependencyGraph edges) fuel (n :: rest)
          colors = match dfsVisit (dependencyGraph edges) fuel colors n []
            with
          | .cycleFound c => (true, c)
          | .finished colors₂ =>
            detectCyclesLoop (dependencyGraph edges) fuel rest colors₂ := by
        simp only [detectCyclesLoop, if_pos hwn]
      cases hv : dfsVisit (dependencyGraph edges) fuel colors n [] with
      | cycleFound c =>
        rw [hv] at hred
        constructor
        · intro c' hc'
          rw [hred] at hc'
          injection hc' with h1 h2
          subst h2
          exact hPn.1 c hv
        · intro res hres
          rw [hred] at hres
          injection hres with h1 _
          cases h1
      | finished colors₂ =>
        rw [hv] at hred
        obtain ⟨inv₂, gray₂, black₂, bm₂, wm₂⟩ := hPn.2 colors₂ hv
        have hnogray₂ : ∀ x, colors₂ x ≠ .gray := by
          intro x hx
          exact absurd ((gray₂ x).mp hx) (List.not_mem_nil x)
        have hwc₂ : whiteCount nodes colors₂ < fuel :=
          Nat.lt_of_le_of_lt (whiteCount_mono nodes colors colors₂ wm₂) hwc
        have hrec := ihl colors₂
          (fun x hx => hsub x (List.mem_cons_of_mem _ hx)) inv₂ hwc₂ hnogray₂
        constructor
        · intro c hc
          rw [hred] at hc
          exact hrec.1 c hc
        · intro res hres
          rw [hred] at hres
          obtain ⟨colors₃, inv₃, blk₃, bm₃⟩ := hrec.2 res hres
          refine ⟨colors₃, inv₃, ?_, fun x hx => bm₃ x (bm₂ x hx)⟩
          intro x hx
          rcases List.mem_cons.mp hx with rfl | hxr
          · exact bm₃ x black₂
          · exact blk₃ x hxr
    · have hblackn : colors n = Color.black := by
        cases hcol : colors n with
        | white => exact absurd hcol hwn
        | gray => exact absurd hcol (hnogray n)
        | black => rfl
      have hred : detectCyclesLoop (dependencyGraph edges) fuel (n :: rest)
          colors = detectCyclesLoop (dependencyGraph edges) fuel rest
            colors := by
        simp only [detectCyclesLoop, if_neg hwn]
      have hrec := ihl colors
        (fun x hx => hsub x (List.mem_cons_of_mem _ hx)) hinv hwc hnogray
      constructor
      · intro c hc
        rw [hred] at hc
        exact hrec.1 c hc
      · intro res hres
        rw [hred] at hres
        obtain ⟨colors₃, inv₃, blk₃, bm₃⟩ := hrec.2 res hres
        refine ⟨colors₃, inv₃, ?_, bm₃⟩
        intro x hx
        rcases List.mem_cons.mp hx with rfl | hxr
        · exact bm₃ x hblackn
        · exact blk₃ x hxr

/-- A reported cycle of `detect_cycles` is a real directed cycle. -/
theorem detect_cycles_true_spec (nodes : List String)
    (edges : List (String × String)) (hnd : nodes.Nodup)
    (hvalid : EdgesValid nodes edges) (c : List String)
    (h : detect_cycles nodes edges = (true, c)) : CycleReport edges c := by
  have hinv0 : ColorInv nodes edges (fun _ => Color.white) := by
    refine ⟨?_, ?_, ?_⟩
    · intro x hx
      exact absurd rfl hx
    · intro x hx
      cases hx
    · intro x rest _ hb
      cases hb.1
  have hwc0 : whiteCount nodes (fun _ => Color.white) < nodes.length + 1 :=
    Nat.lt_succ_of_le (List.countP_le_length _)
  exact (detectCyclesLoop_spec nodes edges hnd hvalid (nodes.length + 1)
    nodes (fun _ => Color.white) (fun x hx => hx) hinv0 hwc0
    (fun x h' => Color.noConfusion h')).1 c h

/-- If `detect_cycles` reports no cycle, the graph is acyclic. -/
theorem detect_cycles_false_acyclic (nodes : List String)
    (edges : List (String × String)) (hnd : nodes.Nodup)
    (hvalid : EdgesValid nodes edges)
    (h : (detect_cycles nodes edges).1 = false) : ¬HasCycle edges := by
  rintro ⟨x, rest, hc⟩
  have hinv0 : ColorInv nodes edges (fun _ => Color.white) := by
    refine ⟨?_, ?_, ?_⟩
    · intro x hx
      exact absurd rfl hx
    · intro x hx
      cases hx
    · intro x rest _ hb
      cases hb.1
  have hwc0 : whiteCount nodes (fun _ => Color.white) < nodes.length + 1 :=
    Nat.lt_succ_of_le (List.countP_le_length _)
  have hpair : detect_cycles nodes edges
      = (false, (detect_cycles nodes edges).2) := by
    rcases hd : detect_cycles nodes edges with ⟨b, res⟩
    rw [hd] at h
    simp only at h
    rw [h]
  obtain ⟨colors₂, inv₂, blk₂, _⟩ :=
    (detectCyclesLoop_spec nodes edges hnd hvalid (nodes.length + 1)
      nodes (fun _ => Color.white) (fun x hx => hx) hinv0 hwc0
      (fun x h' => Color.noConfusion h')).2 (detect_cycles nodes edges).2
      hpair
  have hmemnodes : ∀ v ∈ x :: rest, v ∈ nodes := by
    intro v hv
    rcases cycleAt_pred edges x rest hc v hv with ⟨y, _, hR⟩
    exact (hvalid (y, v) hR).2
  refine inv₂.noBlackCycle x rest hc ⟨?_, ?_⟩
  · exact blk₂ x (hmemnodes x (List.mem_cons_self _ _))
  · intro y hy
    exact blk₂ y (hmemnodes y (List.mem_cons_of_mem _ hy))

/-- C2 — confirmed: on every cyclic graph, `resolve_dependencies` raises
`CircularDependencyError` from the up-front cycle check (so no execution
levels are produced), and the error's node list is exactly the node list
of a discovered cycle — it contains every node on that cycle. -/
theorem c2_cyclic_graph_raises (nodes : List String)
    (edges : List (String × String)) (hnd : nodes.Nodup)
    (hvalid : EdgesValid nodes edges) (hcyc : HasCycle edges) :
    ∃ cyc, resolve_dependencies nodes edges
        = .error (.circular cyc) ∧ CycleReport edges cyc := by
  have htrue : (detect_cycles nodes edges).1 = true := by
    by_cases hb : (detect_cycles nodes edges).1 = true
    · exact hb
    · rw [Bool.not_eq_true] at hb
      exact absurd hcyc (detect_cycles_false_acyclic nodes edges hnd
        hvalid hb)
  have hpair : detect_cycles nodes edges
      = (true, (detect_cycles nodes edges).2) := by
    rcases hd : detect_cycles nodes edges with ⟨b, res⟩
    rw [hd] at htrue
    simp only at htrue
    rw [htrue]
  refine ⟨(detect_cycles nodes edges).2, ?_, ?_⟩
  · unfold resolve_dependencies
    dsimp only
    rw [htrue]
    simp only [if_true]
  · exact detect_cycles_true_spec nodes edges hnd hvalid _ hpair

/-- Witness for C2: the two-node cycle `a → b → a` is detected and
reported. -/
theorem c2_cyclic_graph_raises_witness :
    (["a", "b"] : List String).Nodup ∧
    EdgesValid ["a", "b"] [("a", "b"), ("b", "a")] ∧
    HasCycle [("a", "b"), ("b", "a")] ∧
    ∃ cyc, resolve_dependencies ["a", "b"] [("a", "b"), ("b", "a")]
        = .error (.circular cyc) ∧
      CycleReport [("a", "b"), ("b", "a")] cyc := by
  have h1 : (["a", "b"] : List String).Nodup := by decide
  have h2 : EdgesValid ["a", "b"] [("a", "b"), ("b", "a")] := by
    intro e he
    rcases List.mem_cons.mp he with rfl | he'
    · exact ⟨by simp, by simp⟩
    · rcases List.mem_singleton.mp he' with rfl
      exact ⟨by simp, by simp⟩
  have h3 : HasCycle [("a", "b"), ("b", "a")] := by
    refine ⟨"a", ["b"], ?_⟩
    unfold CycleAt
    refine List.Chain.cons ?_ (List.Chain.cons ?_ List.Chain.nil)
    · exact List.mem_cons_self _ _
    · exact List.mem_cons_of_mem _ (List.mem_singleton.mpr rfl)
  exact ⟨h1, h2, h3,
    c2_cyclic_graph_raises ["a", "b"] [("a", "b"), ("b", "a")] h1 h2 h3⟩

/-! ## Kahn's algorithm: the decrement loop -/

theorem contains_iff (l : List String) (a : String) :
    l.contains a = true ↔ a ∈ l := by
  simp

theorem countP_split {α : Type} (p q : α → Bool) :
    ∀ l : List α, l.countP p
      = l.countP (fun x => p x && q x) + l.countP (fun x => p x && !q x) := by
  intro l
  induction l with
  | nil => rfl
  | cons a t ih =>
    rw [List.countP_cons, List.countP_cons, List.countP_cons, ih]
    cases hp : p a <;> cases hq : q a <;> simp <;> omega

theorem nodup_subset_length (l l' : List String) (hnd : l.Nodup)
    (hsub : ∀ x ∈ l, x ∈ l') : l.length ≤ l'.length := by
  have h1 : l.toFinset.card = l.length := List.toFinset_card_of_nodup hnd
  have h2 : l.toFinset ⊆ l'.toFinset := by
    intro a ha
    rw [List.mem_toFinset] at ha ⊢
    exact hsub a ha
  have h3 : l'.toFinset.card ≤ l'.length := l'.toFinset_card_le
  have := Finset.card_le_card h2
  omega

theorem decrementDeps_deg :
    ∀ (L : List String) (inDeg : String → ℤ) (q : List String) (n : String),
      ((decrementDeps L inDeg q).1) n = inDeg n - (L.count n : ℤ) := by
  intro L
  induction L with
  | nil =>
    intro inDeg q n
    simp [decrementDeps]
  | cons d rest ih =>
    intro inDeg q n
    rw [show decrementDeps (d :: rest) inDeg q
        = decrementDeps rest (updZ inDeg d (inDeg d - 1))
          (if inDeg d - 1 = 0 then q ++ [d] else q) from rfl]
    rw [ih]
    by_cases hnd : n = d
    · subst hnd
      rw [updZ, if_pos rfl, List.count_cons_self]
      push_cast
      ring
    · rw [updZ, if_neg hnd, List.count_cons_of_ne (by
        intro h
        exact hnd (by simpa using h))]

theorem decrementDeps_queue :
    ∀ (L : List String) (inDeg : String → ℤ) (q : List String),
      ∃ app, (decrementDeps L inDeg q).2 = q ++ app ∧ app.Nodup ∧
        ∀ n, n ∈ app ↔ 1 ≤ inDeg n ∧ inDeg n ≤ (L.count n : ℤ) := by
  intro L
  induction L with
  | nil =>
    intro inDeg q
    refine ⟨[], by simp [decrementDeps], List.nodup_nil, ?_⟩
    intro n
    simp only [List.not_mem_nil, false_iff, List.count_nil, Nat.cast_zero]
    omega
  | cons d rest ih =>
    intro inDeg q
    rw [show decrementDeps (d :: rest) inDeg q
        = decrementDeps rest (updZ inDeg d (inDeg d - 1))
          (if inDeg d - 1 = 0 then q ++ [d] else q) from rfl]
    by_cases hv : inDeg d - 1 = 0
    · rw [if_pos hv]
      rcases ih (updZ inDeg d (inDeg d - 1)) (q ++ [d])
        with ⟨app₁, heq, hndp, hmem⟩
      refine ⟨d :: app₁, by rw [heq, List.append_assoc]; rfl, ?_, ?_⟩
      · rw [List.nodup_cons]
        refine ⟨?_, hndp⟩
        intro hd
        have := (hmem d).mp hd
        rw [updZ, if_pos rfl] at this
        omega
      · intro n
        by_cases hnd : n = d
        · subst hnd
          simp only [List.mem_cons, true_or, true_iff]
          constructor
          · omega
          · rw [List.count_cons_self]
            have : (0 : ℤ) ≤ (rest.count n : ℤ) := Int.natCast_nonneg _
            omega
        · simp only [List.mem_cons, hnd, false_or]
          rw [hmem n, updZ, if_neg hnd,
            List.count_cons_of_ne (by
              intro h
              exact hnd (by simpa using h))]
    · rw [if_neg hv]
      rcases ih (updZ inDeg d (inDeg d - 1)) q with ⟨app₁, heq, hndp, hmem⟩
      refine ⟨app₁, heq, hndp, ?_⟩
      intro n
      by_cases hnd : n = d
      · subst hnd
        rw [hmem n, updZ, if_pos rfl, List.count_cons_self]
        push_cast
        omega
      · rw [hmem n, updZ, if_neg hnd,
          List.count_cons_of_ne (by
            intro h
            exact hnd (by simpa using h))]

theorem decrementDeps_append :
    ∀ (a b : List String) (inDeg : String → ℤ) (q : List String),
      decrementDeps (a ++ b) inDeg q
        = decrementDeps b (decrementDeps a inDeg q).1
            (decrementDeps a inDeg q).2 := by
  intro a
  induction a with
  | nil =>
    intro b inDeg q
    rfl
  | cons d rest ih =>
    intro b inDeg q
    rw [List.cons_append,
      show decrementDeps (d :: (rest ++ b)) inDeg q
        = decrementDeps (rest ++ b) (updZ inDeg d (inDeg d - 1))
          (if inDeg d - 1 = 0 then q ++ [d] else q) from rfl,
      ih]
    rfl

theorem processLevel_eq_decrementDeps (g : String → List String) :
    ∀ (lv : List String) (inDeg : String → ℤ) (q : List String),
      processLevel g lv inDeg q = decrementDeps (lv.flatMap g) inDeg q := by
  intro lv
  induction lv with
  | nil =>
    intro inDeg q
    rfl
  | cons n rest ih =>
    intro inDeg q
    rw [show processLevel g (n :: rest) inDeg q
        = processLevel g rest (decrementDeps (g n) inDeg q).1
          (decrementDeps (g n) inDeg q).2 from rfl,
      ih, show (n :: rest).flatMap g = g n ++ rest.flatMap g from rfl,
      decrementDeps_append]

/-! ## Counting bridge between the decrement instances and `in_degree` -/

theorem contains_cons_eq (x m : String) (rest : List String) :
    (m :: rest).contains x = ((x == m) || rest.contains x) := by
  by_cases h : x = m <;> simp [h]

theorem contains_append_eq (x : String) (l₁ l₂ : List String) :
    (l₁ ++ l₂).contains x = (l₁.contains x || l₂.contains x) := by
  by_cases h1 : x ∈ l₁ <;> by_cases h2 : x ∈ l₂ <;> simp [h1, h2]

theorem countP_and_or_split {α : Type} (p a b : α → Bool) :
    ∀ l : List α, (∀ e ∈ l, ¬(a e = true ∧ b e = true)) →
      l.countP (fun e => p e && (a e || b e))
        = l.countP (fun e => p e && a e) + l.countP (fun e => p e && b e) := by
  intro l
  induction l with
  | nil =>
    intro _
    rfl
  | cons x t ih =>
    intro h
    rw [List.countP_cons, List.countP_cons, List.countP_cons,
      ih (fun e he => h e (List.mem_cons_of_mem _ he))]
    have hx := h x (List.mem_cons_self _ _)
    cases hp : p x <;> cases ha : a x <;> cases hb : b x <;>
      simp [hp, ha, hb] at hx ⊢ <;> omega

theorem count_dependencyGraph (edges : List (String × String))
    (m n : String) :
    (dependencyGraph edges m).count n
      = edges.countP (fun e => e.2 == n && e.1 == m) := by
  unfold dependencyGraph
  rw [show ((edges.filter (fun e => e.1 == m)).map Prod.snd).count n
      = ((edges.filter (fun e => e.1 == m)).map Prod.snd).countP
        (fun x => x == n) from rfl]
  rw [show ((edges.filter (fun e => e.1 == m)).map Prod.snd).countP
      (fun x => x == n)
      = (edges.filter (fun e => e.1 == m)).countP (fun e => e.2 == n) from by
    simp [List.countP_map]
    rfl]
  simp [List.countP_filter]

theorem flatMap_count_eq (edges : List (String × String)) (n : String) :
    ∀ lv : List String, lv.Nodup →
      (lv.flatMap (dependencyGraph edges)).count n
        = edges.countP (fun e => e.2 == n && lv.contains e.1) := by
  intro lv
  induction lv with
  | nil =>
    intro _
    rw [show (([] : List String).flatMap (dependencyGraph edges)) = []
      from rfl]
    rw [List.count_nil]
    rw [show (fun (e : String × String) =>
        e.2 == n && List.contains [] e.1) = fun _ => false from by
      funext e
      simp]
    rw [List.countP_false]
    rfl
  | cons m rest ih =>
    intro hnd
    rw [show ((m :: rest).flatMap (dependencyGraph edges))
      = dependencyGraph edges m ++ rest.flatMap (dependencyGraph edges)
      from rfl]
    rw [List.count_append, count_dependencyGraph,
      ih (List.nodup_cons.mp hnd).2]
    have hsplit := countP_and_or_split
      (fun e : String × String => e.2 == n)
      (fun e : String × String => e.1 == m)
      (fun e : String × String => rest.contains e.1) edges
      (by
        intro e _ hcon
        have h1 : e.1 = m := by simpa using hcon.1
        have h2 : e.1 ∈ rest := by
          rw [← contains_iff rest e.1]
          exact hcon.2
        rw [h1] at h2
        exact (List.nodup_cons.mp hnd).1 h2)
    rw [show (fun (e : String × String) =>
        e.2 == n && (m :: rest).contains e.1)
        = fun (e : String × String) =>
          (e.2 == n) && ((e.1 == m) || rest.contains e.1) from by
      funext e
      rw [contains_cons_eq]]
    rw [hsplit]

theorem unprocCount_append (edges : List (String × String))
    (processed lv : List String) (n : String)
    (hdisj : ∀ x ∈ lv, x ∉ processed) (hnd : lv.Nodup) :
    unprocCount edges processed n
      = unprocCount edges (processed ++ lv) n
        + (lv.flatMap (dependencyGraph edges)).count n := by
  unfold unprocCount
  rw [flatMap_count_eq edges n lv hnd]
  have hsplit := countP_split
    (fun e : String × String => e.2 == n && !(processed.contains e.1))
    (fun e : String × String => lv.contains e.1) edges
  rw [show (fun (e : String × String) =>
      e.2 == n && !((processed ++ lv).contains e.1))
      = fun (e : String × String) =>
        (e.2 == n && !(processed.contains e.1)) && !(lv.contains e.1) from by
    funext e
    rw [contains_append_eq]
    cases h1 : processed.contains e.1 <;> cases h2 : lv.contains e.1 <;>
      simp]
  have hcongr : edges.countP (fun e =>
      (e.2 == n && !(processed.contains e.1)) && lv.contains e.1)
      = edges.countP (fun e => e.2 == n && lv.contains e.1) := by
    refine countP_congr_of _ _ edges ?_
    intro e _
    by_cases hin : lv.contains e.1 = true
    · have hnp : processed.contains e.1 = false := by
        rw [contains_iff] at hin
        by_cases hp : processed.contains e.1 = true
        · rw [contains_iff] at hp
          exact absurd hp (hdisj e.1 hin)
        · exact Bool.not_eq_true _ |>.mp hp
      rw [hin, hnp]
      simp
    · have hin' : lv.contains e.1 = false := Bool.not_eq_true _ |>.mp hin
      rw [hin']
      simp
  rw [hsplit, hcongr]
  omega

/-! ## The Kahn loop specification -/

theorem kahnLoop_spec (nodes : List String) (edges : List (String × String))
    (hnd : nodes.Nodup) (hvalid : EdgesValid nodes edges) :
    ∀ (fuel : Nat) (inDeg : String → ℤ) (queue : List String)
      (acc : List (List String)),
      KahnInv nodes edges acc queue inDeg →
      nodes.length ≤ acc.flatten.length + fuel →
      (kahnLoop (dependencyGraph edges) fuel inDeg queue acc).flatten.Nodup ∧
      (∀ x ∈ (kahnLoop (dependencyGraph edges) fuel inDeg queue
        acc).flatten, x ∈ nodes) ∧
      LevelsOK edges (kahnLoop (dependencyGraph edges) fuel inDeg queue
        acc) ∧
      (∀ n ∈ nodes,
        n ∉ (kahnLoop (dependencyGraph edges) fuel inDeg queue acc).flatten →
        ∃ p ∈ reverseGraph edges n, p ∈ nodes ∧
          p ∉ (kahnLoop (dependencyGraph edges) fuel inDeg queue
            acc).flatten) := by
  intro fuel
  induction fuel with
  | zero =>
    intro inDeg queue acc hinv hfuel
    cases queue with
    | nil =>
      rw [show kahnLoop (dependencyGraph edges) 0 inDeg [] acc = acc
        from rfl]
      have hseen := hinv.seenNodup
      have hsub := hinv.seenSub
      rw [List.append_nil] at hseen hsub
      refine ⟨hseen, hsub, hinv.levelsOK, ?_⟩
      intro n hn hnf
      have hnz := hinv.unseenNonzero n hn (by
        rw [List.append_nil]
        exact hnf)
      rw [hinv.degEq n hn] at hnz
      have hcp : unprocCount edges acc.flatten n ≠ 0 := by
        intro h0
        rw [h0] at hnz
        exact hnz rfl
      have hex : ∃ e ∈ edges,
          (e.2 == n && !(acc.flatten.contains e.1)) = true := by
        by_contra hno
        push_neg at hno
        refine hcp (List.countP_eq_zero.mpr ?_)
        intro e he
        intro hpe
        exact absurd hpe (by
          intro h
          exact absurd h (by
            have := hno e he
            simp only [this]
            intro hc
            cases hc))
      rcases hex with ⟨e, he, hetrue⟩
      rw [Bool.and_eq_true] at hetrue
      have he2 : e.2 = n := by simpa using hetrue.1
      have he1 : e.1 ∉ acc.flatten := by
        intro hmem
        have := (contains_iff acc.flatten e.1).mpr hmem
        rw [this] at hetrue
        cases hetrue.2
      refine ⟨e.1, ?_, (hvalid e he).1, he1⟩
      rw [mem_reverseGraph]
      rw [← he2]
      exact he
    | cons q qs =>
      exfalso
      have hlen := nodup_subset_length (acc.flatten ++ (q :: qs)) nodes
        hinv.seenNodup hinv.seenSub
      rw [List.length_append, List.length_cons] at hlen
      omega
  | succ fuel ih =>
    intro inDeg queue acc hinv hfuel
    cases queue with
    | nil =>
      rw [show kahnLoop (dependencyGraph edges) (fuel + 1) inDeg [] acc
        = acc from rfl]
      have hseen := hinv.seenNodup
      have hsub := hinv.seenSub
      rw [List.append_nil] at hseen hsub
      refine ⟨hseen, hsub, hinv.levelsOK, ?_⟩
      intro n hn hnf
      have hnz := hinv.unseenNonzero n hn (by
        rw [List.append_nil]
        exact hnf)
      rw [hinv.degEq n hn] at hnz
      have hcp : unprocCount edges acc.flatten n ≠ 0 := by
        intro h0
        rw [h0] at hnz
        exact hnz rfl
      have hex : ∃ e ∈ edges,
          (e.2 == n && !(acc.flatten.contains e.1)) = true := by
        by_contra hno
        push_neg at hno
        refine hcp (List.countP_eq_zero.mpr ?_)
        intro e he hpe
        exact hno e he hpe
      rcases hex with ⟨e, he, hetrue⟩
      rw [Bool.and_eq_true] at hetrue
      have he2 : e.2 = n := by simpa using hetrue.1
      have he1 : e.1 ∉ acc.flatten := by
        intro hmem
        have := (contains_iff acc.flatten e.1).mpr hmem
        rw [this] at hetrue
        cases hetrue.2
      refine ⟨e.1, ?_, (hvalid e he).1, he1⟩
      rw [mem_reverseGraph]
      rw [← he2]
      exact he
    | cons q qs =>
      have hloop : kahnLoop (dependencyGraph edges) (fuel + 1) inDeg
          (q :: qs) acc
          = kahnLoop (dependencyGraph edges) fuel
            (processLevel (dependencyGraph edges) (q :: qs) inDeg []).1
            (processLevel (dependencyGraph edges) (q :: qs) inDeg []).2
            (acc ++ [q :: qs]) := rfl
      rw [hloop]
      rw [processLevel_eq_decrementDeps]
      set lv := q :: qs with hlv
      set L := lv.flatMap (dependencyGraph edges) with hL
      have hdeg : ∀ n, (decrementDeps L inDeg []).1 n
          = inDeg n - (L.count n : ℤ) := fun n => decrementDeps_deg L inDeg [] n
      rcases decrementDeps_queue L inDeg [] with ⟨app, happ, happnd, happmem⟩
      rw [List.nil_append] at happ
      have hseennd := hinv.seenNodup
      rw [List.nodup_append] at hseennd
      have hlvnd : lv.Nodup := hseennd.2.1
      have hdisj : ∀ x ∈ lv, x ∉ acc.flatten := by
        intro x hx hmem
        exact hseennd.2.2 hmem hx
      have hfl : (acc ++ [lv]).flatten = acc.flatten ++ lv := by
        simp
      have happsub : ∀ n ∈ app, n ∈ nodes := by
        intro n hn
        have hc := (happmem n).mp hn
        have hpos : 0 < L.count n := by
          by_contra hz
          push_neg at hz
          have h0 : L.count n = 0 := Nat.le_zero.mp hz
          rw [h0] at hc
          push_cast at hc
          omega
        have hnL : n ∈ L := List.count_pos_iff_mem.mp hpos
        rw [hL] at hnL
        rcases List.mem_flatMap.mp hnL with ⟨m, _, hng⟩
        exact (hvalid (m, n) ((mem_dependencyGraph edges m n).mp hng)).2
      have happdisj : ∀ n ∈ acc.flatten ++ lv, n ∉ app := by
        intro n hn hna
        have h0 := hinv.seenZero n hn
        have hc := (happmem n).mp hna
        omega
      have hdeg' : ∀ n ∈ nodes, (decrementDeps L inDeg []).1 n
          = (unprocCount edges (acc ++ [lv]).flatten n : ℤ) := by
        intro n hn
        rw [hdeg n, hinv.degEq n hn, hfl,
          unprocCount_append edges acc.flatten lv n hdisj hlvnd]
        push_cast
        ring
      have hinv' : KahnInv nodes edges (acc ++ [lv]) app
          (decrementDeps L inDeg []).1 := by
        refine ⟨?_, ?_, hdeg', ?_, ?_, ?_⟩
        · rw [hfl, List.nodup_append]
          refine ⟨hinv.seenNodup, happnd, ?_⟩
          intro a ha
          exact happdisj a ha
        · intro x hx
          rw [hfl] at hx
          rcases List.mem_append.mp hx with h1 | h2
          · exact hinv.seenSub x h1
          · exact happsub x h2
        · intro n hn
          rw [hfl] at hn
          rcases List.mem_append.mp hn with h1 | h2
          · have h0 := hinv.seenZero n h1
            have hnn : n ∈ nodes := hinv.seenSub n h1
            have := hdeg' n hnn
            have hge : (0 : ℤ) ≤ (unprocCount edges (acc ++ [lv]).flatten n
              : ℤ) := Int.natCast_nonneg _
            have hcnt : (0 : ℤ) ≤ (L.count n : ℤ) := Int.natCast_nonneg _
            rw [hdeg n] at this ⊢
            omega
          · have hc := (happmem n).mp h2
            have hnn : n ∈ nodes := happsub n h2
            have := hdeg' n hnn
            have hge : (0 : ℤ) ≤ (unprocCount edges (acc ++ [lv]).flatten n
              : ℤ) := Int.natCast_nonneg _
            rw [hdeg n] at this ⊢
            omega
        · intro n hn hnmem
          rw [hfl] at hnmem
          have hnseen : n ∉ acc.flatten ++ lv := by
            intro hmem
            exact hnmem (List.mem_append.mpr (Or.inl hmem))
          have hnapp : n ∉ app := by
            intro hmem
            exact hnmem (List.mem_append.mpr (Or.inr hmem))
          have hnz := hinv.unseenNonzero n hn hnseen
          have hge : (0 : ℤ) ≤ inDeg n := by
            rw [hinv.degEq n hn]
            exact Int.natCast_nonneg _
          have hnotc : ¬(1 ≤ inDeg n ∧ inDeg n ≤ (L.count n : ℤ)) :=
            fun h => hnapp ((happmem n).mpr h)
          push_neg at hnotc
          rw [hdeg n]
          have h1 : (1 : ℤ) ≤ inDeg n := by omega
          have hlt := hnotc h1
          omega
        · intro k lv' hk n hn p hp
          by_cases hklt : k < acc.length
          · have hk' : acc[k]? = some lv' := by
              rw [← hk]
              exact (List.getElem?_append_left hklt).symm
            have := hinv.levelsOK k lv' hk' n hn p hp
            rw [List.take_append_of_le_length (Nat.le_of_lt hklt)]
            exact this
          · by_cases hkeq : k = acc.length
            · subst hkeq
              have hk' : (acc ++ [lv])[acc.length]? = some lv := by
                rw [List.getElem?_append_right (Nat.le_refl _)]
                simp
              rw [hk'] at hk
              injection hk with hk
              subst hk
              have hnseen : n ∈ acc.flatten ++ lv :=
                List.mem_append.mpr (Or.inr hn)
              have h0 := hinv.seenZero n hnseen
              have hnn : n ∈ nodes := hinv.seenSub n hnseen
              have hdegn := hinv.degEq n hnn
              rw [h0] at hdegn
              have hcnt0 : unprocCount edges acc.flatten n = 0 := by
                omega
              have hall := List.countP_eq_zero.mp hcnt0
              have hpn : (p, n) ∈ edges := (mem_reverseGraph edges n p).mp hp
              have := hall (p, n) hpn
              rw [List.take_append_of_le_length (Nat.le_refl _),
                List.take_length]
              by_contra hpnot
              refine this ?_
              have hpc : acc.flatten.contains p = false := by
                by_cases hc : acc.flatten.contains p = true
                · exact absurd ((contains_iff _ _).mp hc) hpnot
                · exact Bool.not_eq_true _ |>.mp hc
              simp only [hpc]
              simp
            · have hk' : (acc ++ [lv])[k]? = none := by
                refine List.getElem?_eq_none ?_
                rw [List.length_append, List.length_singleton]
                omega
              rw [hk'] at hk
              cases hk
      have hfuel' : nodes.length ≤ (acc ++ [lv]).flatten.length + fuel := by
        rw [hfl, List.length_append]
        have : 0 < lv.length := by
          rw [hlv]
          simp
        omega
      rw [happ]
      exact ih (decrementDeps L inDeg []).1 app (acc ++ [lv]) hinv' hfuel'

/-! ## Kahn completeness: acyclic graphs are fully leveled -/

theorem exists_cycle_of_pred (edges : List (String × String))
    (S : List String) (hne : S ≠ [])
    (hpred : ∀ n ∈ S, ∃ p ∈ S, (p, n) ∈ edges) :
    HasCycle edges := by
  obtain ⟨s0, hs0⟩ := List.exists_mem_of_ne_nil S hne
  choose P hPmem hPedge using hpred
  let W : ℕ → {x : String // x ∈ S} := fun k =>
    Nat.rec (motive := fun _ => {x : String // x ∈ S}) ⟨s0, hs0⟩
      (fun _ prev => ⟨P prev.1 prev.2, hPmem prev.1 prev.2⟩) k
  have hWedge : ∀ k, EdgeAdj edges (W (k + 1)).1 (W k).1 := by
    intro k
    exact hPedge (W k).1 (W k).2
  have hchain : ∀ d b, ∃ l,
      List.Chain (EdgeAdj edges) (W (b + d + 1)).1 (l ++ [(W b).1]) := by
    intro d
    induction d with
    | zero =>
      intro b
      refine ⟨[], ?_⟩
      rw [List.nil_append]
      exact List.Chain.cons (hWedge b) List.Chain.nil
    | succ d ih =>
      intro b
      obtain ⟨l, hl⟩ := ih b
      refine ⟨(W (b + d + 1)).1 :: l, ?_⟩
      rw [List.cons_append]
      have he : b + (d + 1) + 1 = (b + d + 1) + 1 := by ring
      rw [he]
      exact List.Chain.cons (hWedge (b + d + 1)) hl
  have hc : (S.toFinset).card <
      (Finset.univ : Finset (Fin (S.length + 1))).card := by
    rw [Finset.card_univ, Fintype.card_fin]
    have h1 := S.toFinset_card_le
    omega
  have hf : ∀ k ∈ (Finset.univ : Finset (Fin (S.length + 1))),
      (W k.1).1 ∈ S.toFinset := fun k _ => List.mem_toFinset.mpr (W k.1).2
  obtain ⟨i, _, j, _, hij, heq⟩ :=
    Finset.exists_ne_map_eq_of_card_lt_of_maps_to hc hf
  have hvne : i.1 ≠ j.1 := fun h => hij (Fin.ext h)
  rcases Nat.lt_or_ge i.1 j.1 with hlt | hge
  · obtain ⟨l, hl⟩ := hchain (j.1 - i.1 - 1) i.1
    have hidx : i.1 + (j.1 - i.1 - 1) + 1 = j.1 := by omega
    rw [hidx] at hl
    rw [heq] at hl
    exact ⟨(W j.1).1, l, hl⟩
  · have hlt : j.1 < i.1 := by omega
    obtain ⟨l, hl⟩ := hchain (i.1 - j.1 - 1) j.1
    have hidx : j.1 + (i.1 - j.1 - 1) + 1 = i.1 := by omega
    rw [hidx] at hl
    rw [← heq] at hl
    exact ⟨(W i.1).1, l, hl⟩

theorem topological_sort_ok_spec (nodes : List String)
    (edges : List (String × String)) (hnd : nodes.Nodup)
    (hvalid : EdgesValid nodes edges) (hacyc : ¬HasCycle edges) :
    ∃ levels, topological_sort nodes edges = .ok levels ∧
      levels.flatten.Nodup ∧ (∀ n, n ∈ levels.flatten ↔ n ∈ nodes) ∧
      LevelsOK edges levels := by
  have hinv : KahnInv nodes edges [] (nodes.filter
      (fun n => ((reverseGraph edges n).length : ℤ) == 0))
      (fun n => ((reverseGraph edges n).length : ℤ)) := by
    refine ⟨?_, ?_, ?_, ?_, ?_, ?_⟩
    · rw [List.flatten_nil, List.nil_append]
      exact hnd.filter _
    · intro x hx
      rw [List.flatten_nil, List.nil_append] at hx
      exact (List.mem_filter.mp hx).1
    · intro n hn
      have h1 : (reverseGraph edges n).length
          = edges.countP (fun e => e.2 == n) := by
        rw [reverseGraph, List.length_map, List.countP_eq_length_filter]
      have h2 : unprocCount edges ([] : List (List String)).flatten n
          = edges.countP (fun e => e.2 == n) := by
        rw [unprocCount]
        refine countP_congr_of _ _ edges ?_
        intro e _
        rw [List.flatten_nil]
        simp
      rw [h1, h2]
    · intro n hn
      rw [List.flatten_nil, List.nil_append] at hn
      have := (List.mem_filter.mp hn).2
      exact Int.natCast_eq_zero.mpr (by
        have hz : (((reverseGraph edges n).length : ℤ) == 0) = true := this
        have := beq_iff_eq.mp hz
        exact_mod_cast this)
    · intro n hn hmem
      rw [List.flatten_nil, List.nil_append] at hmem
      intro h0
      refine hmem (List.mem_filter.mpr ⟨hn, ?_⟩)
      exact beq_iff_eq.mpr h0
    · intro k lv hk
      rw [List.getElem?_nil] at hk
      cases hk
  have hspec := kahnLoop_spec nodes edges hnd hvalid (nodes.length + 1)
    (fun n => ((reverseGraph edges n).length : ℤ))
    (nodes.filter (fun n => ((reverseGraph edges n).length : ℤ) == 0))
    [] hinv (by
      rw [List.flatten_nil, List.length_nil]
      omega)
  obtain ⟨hknd, hksub, hkok, hkstuck⟩ := hspec
  set levels := kahnLoop (dependencyGraph edges) (nodes.length + 1)
    (fun n => ((reverseGraph edges n).length : ℤ))
    (nodes.filter (fun n => ((reverseGraph edges n).length : ℤ) == 0))
    [] with hlevels
  have hcov : ∀ n ∈ nodes, n ∈ levels.flatten := by
    by_contra hnc
    push_neg at hnc
    obtain ⟨n0, hn0, hn0f⟩ := hnc
    refine hacyc (exists_cycle_of_pred edges
      (nodes.filter (fun n => !(levels.flatten.contains n))) ?_ ?_)
    · intro hempty
      have : n0 ∈ nodes.filter
          (fun n => !(levels.flatten.contains n)) := by
        refine List.mem_filter.mpr ⟨hn0, ?_⟩
        have : levels.flatten.contains n0 = false := by
          by_cases hc : levels.flatten.contains n0 = true
          · exact absurd ((contains_iff _ _).mp hc) hn0f
          · exact Bool.not_eq_true _ |>.mp hc
        rw [this]
        rfl
      rw [hempty] at this
      cases this
    · intro n hn
      have hn1 := List.mem_filter.mp hn
      have hnotL : n ∉ levels.flatten := by
        intro hmem
        have := (contains_iff levels.flatten n).mpr hmem
        rw [this] at hn1
        cases hn1.2
      obtain ⟨p, hpg, hpn, hpf⟩ := hkstuck n hn1.1 hnotL
      refine ⟨p, ?_, (mem_reverseGraph edges n p).mp hpg⟩
      refine List.mem_filter.mpr ⟨hpn, ?_⟩
      have : levels.flatten.contains p = false := by
        by_cases hc : levels.flatten.contains p = true
        · exact absurd ((contains_iff _ _).mp hc) hpf
        · exact Bool.not_eq_true _ |>.mp hc
      rw [this]
      rfl
  have hlen : (levels.map List.length).sum = nodes.length := by
    have h1 : levels.flatten.length = (levels.map List.length).sum := by
      rw [List.length_flatten]
    have h2 : levels.flatten.length ≤ nodes.length :=
      nodup_subset_length levels.flatten nodes hknd hksub
    have h3 : nodes.length ≤ levels.flatten.length :=
      nodup_subset_length nodes levels.flatten hnd hcov
    omega
  refine ⟨levels, ?_, hknd, fun n => ⟨hksub n, hcov n⟩, hkok⟩
  rw [topological_sort]
  dsimp only
  rw [← hlevels, if_pos hlen]

/-- **C1.** For every acyclic flow graph over distinct declared nodes,
`resolve_dependencies` returns execution levels in which every declared
node appears exactly once across all levels (so in exactly one level),
only declared nodes appear, every prerequisite of a node in level `k`
appears in some level `0..k-1`, and the concatenation of the levels is a
valid topological order: every edge's source strictly precedes its
target. -/
theorem c1_resolve_topological (nodes : List String)
    (edges : List (String × String)) (hnd : nodes.Nodup)
    (hvalid : EdgesValid nodes edges) (hacyc : ¬HasCycle edges) :
    ∃ levels, resolve_dependencies nodes edges = .ok levels ∧
      (∀ n ∈ nodes, levels.flatten.count n = 1) ∧
      (∀ n ∈ levels.flatten, n ∈ nodes) ∧
      LevelsOK edges levels ∧
      (∀ s t, (s, t) ∈ edges →
        levels.flatten.indexOf s < levels.flatten.indexOf t) := by
  obtain ⟨levels, hok, hnodup, hmemiff, hlevok⟩ :=
    topological_sort_ok_spec nodes edges hnd hvalid hacyc
  have hdet : (detect_cycles nodes edges).1 = false := by
    by_contra hdt
    rw [Bool.not_eq_false] at hdt
    have hpair : detect_cycles nodes edges
        = (true, (detect_cycles nodes edges).2) := by
      rw [← hdt]
    obtain ⟨x, rest, _, hcy⟩ :=
      detect_cycles_true_spec nodes edges hnd hvalid _ hpair
    exact hacyc ⟨x, rest, hcy⟩
  have hres : resolve_dependencies nodes edges = .ok levels := by
    unfold resolve_dependencies
    dsimp only
    rw [hdet]
    simpa using hok
  refine ⟨levels, hres, ?_, fun n hn => (hmemiff n).mp hn, hlevok, ?_⟩
  · intro n hn
    exact List.count_eq_one_of_mem hnodup ((hmemiff n).mpr hn)
  · intro s t hst
    have ht : t ∈ levels.flatten := (hmemiff t).mpr (hvalid (s, t) hst).2
    obtain ⟨lv, hlvmem, htlv⟩ := List.mem_flatten.mp ht
    obtain ⟨k, hk⟩ := List.getElem?_of_mem hlvmem
    have hs : s ∈ (levels.take k).flatten :=
      hlevok k lv hk t htlv s ((mem_reverseGraph edges t s).mpr hst)
    obtain ⟨hklt, hkeq⟩ := List.getElem?_eq_some.mp hk
    have hsplit : levels.flatten
        = (levels.take k).flatten ++ (levels.drop k).flatten := by
      rw [← List.flatten_append, List.take_append_drop]
    have htdrop : t ∈ (levels.drop k).flatten := by
      rw [List.drop_eq_getElem_cons hklt, hkeq]
      exact List.mem_flatten.mpr ⟨lv, List.mem_cons_self _ _, htlv⟩
    have htnot : t ∉ (levels.take k).flatten := by
      intro hmem
      rw [hsplit] at hnodup
      exact (List.nodup_append.mp hnodup).2.2 hmem htdrop
    rw [hsplit, List.indexOf_append_of_mem hs,
      List.indexOf_append_of_not_mem htnot]
    have := List.indexOf_lt_length.mpr hs
    omega

theorem c1_resolve_topological_witness :
    ((["a"] : List String).Nodup ∧
      EdgesValid ["a"] ([] : List (String × String)) ∧
      ¬HasCycle ([] : List (String × String))) ∧
    (∃ levels,
      resolve_dependencies ["a"] ([] : List (String × String))
        = .ok levels ∧
      (∀ n ∈ (["a"] : List String), levels.flatten.count n = 1) ∧
      (∀ n ∈ levels.flatten, n ∈ (["a"] : List String)) ∧
      LevelsOK ([] : List (String × String)) levels ∧
      (∀ s t, (s, t) ∈ ([] : List (String × String)) →
        levels.flatten.indexOf s < levels.flatten.indexOf t)) := by
  have hacyc : ¬HasCycle ([] : List (String × String)) := by
    rintro ⟨x, rest, hc⟩
    have hc' : List.Chain (EdgeAdj ([] : List (String × String))) x
        (rest ++ [x]) := hc
    obtain ⟨y, ys, hys⟩ := List.exists_cons_of_ne_nil
      (show rest ++ [x] ≠ [] by simp)
    rw [hys] at hc'
    cases hc' with
    | cons h _ => exact (List.not_mem_nil (x, y)) h
  have hnd : (["a"] : List String).Nodup := by simp
  have hvalid : EdgesValid ["a"] ([] : List (String × String)) :=
    fun e he => absurd he (List.not_mem_nil e)
  exact ⟨⟨hnd, hvalid, hacyc⟩,
    c1_resolve_topological ["a"] [] hnd hvalid hacyc⟩

/-! ## Sequential execution with a single failing non-critical node -/

theorem node_results_set_node_result (n : String) (r : List (String × Val))
    (ctx : ExecutionContext) (m : String) :
    (set_node_result n r ctx).node_results m
      = if m = n then some r else ctx.node_results m := by
  unfold set_node_result
  dsimp only
  split <;> rfl

theorem node_results_set_node_status (n : String) (s : ExecutionStatus)
    (ctx : ExecutionContext) (m : String) :
    (set_node_status n s ctx).node_results m = ctx.node_results m := rfl

theorem transGen_chain {edges : List (String × String)} {a b : String}
    (h : DependsOn edges a b) :
    ∃ l, List.Chain (EdgeAdj edges) a (l ++ [b]) := by
  have h' : Relation.TransGen (EdgeAdj edges) a b := h
  clear h
  induction h' with
  | single hab => exact ⟨[], List.Chain.cons hab List.Chain.nil⟩
  | @tail c d hac hcd ih =>
    obtain ⟨l, hl⟩ := ih
    refine ⟨l ++ [c], chain_append_singleton (l ++ [c]) a d hl ?_⟩
    intro z hz
    rw [show a :: (l ++ [c]) = (a :: l) ++ [c] from rfl,
      List.getLast?_concat] at hz
    injection hz with hz
    rw [hz] at hcd
    exact hcd

theorem hasCycle_of_dependsOn_self {edges : List (String × String)}
    {a : String} (h : DependsOn edges a a) : HasCycle edges := by
  obtain ⟨l, hl⟩ := transGen_chain h
  exact ⟨a, l, hl⟩

theorem execute_single_node_of_cannot (nodeType : String → String)
    (procs : String → List (String × Val) → Except String (List (String × Val)))
    (gph : String → List String) (ctx : ExecutionContext) (n : String)
    (hcan : can_execute_node ctx n gph = false) :
    execute_single_node nodeType procs gph ctx n = ctx := by
  unfold execute_single_node
  rw [hcan]
  rfl

theorem execute_single_node_of_ok (nodeType : String → String)
    (procs : String → List (String × Val) → Except String (List (String × Val)))
    (gph : String → List String) (ctx : ExecutionContext) (n : String)
    (out : List (String × Val))
    (hcan : can_execute_node ctx n gph = true)
    (hout : procs n (get_node_input_data (set_node_status n .running ctx)
      gph n) = .ok out) :
    execute_single_node nodeType procs gph ctx n
      = set_node_status n .completed
          (set_node_result n (mergeA out
            [("execution_time_ms", .num 0), ("node_id", .str n),
             ("node_type", .str (nodeType n))])
            (set_node_status n .running ctx)) := by
  unfold execute_single_node
  dsimp only
  rw [hcan, hout]
  rfl

theorem execute_single_node_of_error_noncritical (nodeType : String → String)
    (procs : String → List (String × Val) → Except String (List (String × Val)))
    (gph : String → List String) (ctx : ExecutionContext) (n : String)
    (msg : String)
    (hcan : can_execute_node ctx n gph = true)
    (hmsg : procs n (get_node_input_data (set_node_status n .running ctx)
      gph n) = .error msg)
    (hcrit : should_stop_on_error nodeType n = false) :
    execute_single_node nodeType procs gph ctx n
      = set_node_result n
          [("error", .str msg), ("node_id", .str n),
           ("node_type", .str (nodeType n))]
          (set_node_status n .failed (set_node_status n .running ctx)) := by
  unfold execute_single_node
  dsimp only
  rw [hcan, hmsg]
  dsimp only
  rw [hcrit]
  rfl

theorem node_status_triple (n : String) (r : List (String × Val))
    (s₁ s₂ : ExecutionStatus) (ctx : ExecutionContext) (m : String) :
    (set_node_result n r (set_node_status n s₂ (set_node_status n s₁
      ctx))).node_status m = if m = n then s₂ else ctx.node_status m := by
  rw [node_status_set_node_result, node_status_set_node_status,
    node_status_set_node_status]
  by_cases hm : m = n
  · rw [if_pos hm, if_pos hm]
  · rw [if_neg hm, if_neg hm, if_neg hm]

theorem node_results_triple (n : String) (r : List (String × Val))
    (s₁ s₂ : ExecutionStatus) (ctx : ExecutionContext) (m : String) :
    (set_node_result n r (set_node_status n s₂ (set_node_status n s₁
      ctx))).node_results m
      = if m = n then some r else ctx.node_results m := by
  rw [node_results_set_node_result, node_results_set_node_status,
    node_results_set_node_status]

theorem status_triple (n : String) (r : List (String × Val))
    (s₁ s₂ : ExecutionStatus) (ctx : ExecutionContext) :
    (set_node_result n r (set_node_status n s₂ (set_node_status n s₁
      ctx))).status = ctx.status := by
  rw [status_set_node_result, status_set_node_status,
    status_set_node_status]

theorem node_status_ok_shape (n : String) (r : List (String × Val))
    (ctx : ExecutionContext) (m : String) :
    (set_node_status n .completed (set_node_result n r (set_node_status n
      .running ctx))).node_status m
      = if m = n then .completed else ctx.node_status m := by
  rw [node_status_set_node_status, node_status_set_node_result,
    node_status_set_node_status]
  by_cases hm : m = n
  · rw [if_pos hm, if_pos hm]
  · rw [if_neg hm, if_neg hm, if_neg hm]

theorem node_results_ok_shape (n : String) (r : List (String × Val))
    (ctx : ExecutionContext) (m : String) :
    (set_node_status n .completed (set_node_result n r (set_node_status n
      .running ctx))).node_results m
      = if m = n then some r else ctx.node_results m := by
  rw [node_results_set_node_status, node_results_set_node_result,
    node_results_set_node_status]

theorem status_ok_shape (n : String) (r : List (String × Val))
    (ctx : ExecutionContext) :
    (set_node_status n .completed (set_node_result n r (set_node_status n
      .running ctx))).status = ctx.status := by
  rw [status_set_node_status, status_set_node_result,
    status_set_node_status]

theorem seqinv_step (nodeType : String → String)
    (procs : String → List (String × Val) → Except String (List (String × Val)))
    (edges : List (String × String)) (f : String)
    (hacyc : ¬HasCycle edges)
    (hcrit : should_stop_on_error nodeType f = false)
    (hfail : ∀ input, ∃ m, procs f input = .error m)
    (hok : ∀ m, m ≠ f → ∀ input, ∃ out, procs m input = .ok out)
    (done : List String) (ctx : ExecutionContext) (n : String)
    (hnin : n ∉ done)
    (hpre : ∀ p ∈ reverseGraph edges n, p ∈ done)
    (hinv : SeqInv edges f done ctx) :
    SeqInv edges f (done ++ [n])
      (execute_single_node nodeType procs (reverseGraph edges) ctx n) := by
  obtain ⟨hrun, hfcl, hcomp, hdepcl, hpend⟩ := hinv
  have hnpend : ctx.node_status n = .pending := hpend n hnin
  by_cases hdep : DependsOn edges f n
  · by_cases hnf : n = f
    · subst hnf
      exact absurd (hasCycle_of_dependsOn_self hdep) hacyc
    · obtain ⟨p, hrt, hedge⟩ := Relation.TransGen.tail'_iff.mp hdep
      have hpmem : p ∈ reverseGraph edges n :=
        (mem_reverseGraph edges n p).mpr hedge
      have hpdone : p ∈ done := hpre p hpmem
      have hpnc : ctx.node_status p ≠ .completed := by
        rcases Relation.reflTransGen_iff_eq_or_transGen.mp hrt with
          rfl | htg
        · have hstat := (hfcl hpdone).1
          intro hc
          rw [hstat] at hc
          cases hc
        · by_cases hpf : p = f
          · subst hpf
            exact absurd (hasCycle_of_dependsOn_self htg) hacyc
          · intro hc
            rw [hdepcl p hpdone hpf htg] at hc
            cases hc
      have hcan : can_execute_node ctx n (reverseGraph edges) = false := by
        by_contra hc
        rw [Bool.not_eq_false] at hc
        unfold can_execute_node at hc
        rw [Bool.and_eq_true, Bool.and_eq_true] at hc
        have hall := hc.2
        rw [List.all_eq_true] at hall
        have hthis := hall p hpmem
        rw [beq_iff_eq] at hthis
        exact hpnc hthis
      rw [execute_single_node_of_cannot _ _ _ _ _ hcan]
      refine ⟨hrun, ?_, ?_, ?_, ?_⟩
      · intro hf
        rcases List.mem_append.mp hf with h1 | h2
        · exact hfcl h1
        · rw [List.mem_singleton] at h2
          exact absurd h2.symm hnf
      · intro m hm hmf hmdep
        rcases List.mem_append.mp hm with h1 | h2
        · exact hcomp m h1 hmf hmdep
        · rw [List.mem_singleton] at h2
          subst h2
          exact absurd hdep hmdep
      · intro m hm hmf hmdep
        rcases List.mem_append.mp hm with h1 | h2
        · exact hdepcl m h1 hmf hmdep
        · rw [List.mem_singleton] at h2
          subst h2
          exact hnpend
      · intro m hm
        exact hpend m (fun hmd => hm (List.mem_append.mpr (Or.inl hmd)))
  · have hprec : ∀ p ∈ reverseGraph edges n,
        ctx.node_status p = .completed := by
      intro p hp
      have hedge : (p, n) ∈ edges := (mem_reverseGraph edges n p).mp hp
      have hpdone : p ∈ done := hpre p hp
      by_cases hpf : p = f
      · subst hpf
        exact absurd (Relation.TransGen.single hedge) hdep
      · by_cases hpdep : DependsOn edges f p
        · exact absurd (Relation.TransGen.tail hpdep hedge) hdep
        · exact hcomp p hpdone hpf hpdep
    have hcan : can_execute_node ctx n (reverseGraph edges) = true := by
      unfold can_execute_node
      rw [Bool.and_eq_true, Bool.and_eq_true]
      refine ⟨⟨?_, ?_⟩, ?_⟩
      · unfold is_running
        rw [hrun]
        rfl
      · unfold get_node_status
        rw [hnpend]
        rfl
      · rw [List.all_eq_true]
        intro p hp
        unfold get_node_status
        rw [hprec p hp]
        rfl
    by_cases hnf : n = f
    · subst hnf
      obtain ⟨msg, hmsg⟩ := hfail
        (get_node_input_data (set_node_status n .running ctx)
          (reverseGraph edges) n)
      rw [execute_single_node_of_error_noncritical nodeType procs
        (reverseGraph edges) ctx n msg hcan hmsg hcrit]
      refine ⟨?_, ?_, ?_, ?_, ?_⟩
      · rw [status_triple]
        exact hrun
      · intro _
        refine ⟨?_, [("error", .str msg), ("node_id", .str n),
          ("node_type", .str (nodeType n))], ?_, ?_⟩
        · rw [node_status_triple, if_pos rfl]
        · rw [node_results_triple, if_pos rfl]
        · intro hnone
          rw [show lookupA "error" [("error", Val.str msg),
            ("node_id", Val.str n), ("node_type", Val.str (nodeType n))]
            = some (.str msg) from rfl] at hnone
          cases hnone
      · intro m hm hmf hmdep
        rw [node_status_triple, if_neg hmf]
        rcases List.mem_append.mp hm with h1 | h2
        · exact hcomp m h1 hmf hmdep
        · rw [List.mem_singleton] at h2
          exact absurd h2 hmf
      · intro m hm hmf hmdep
        rw [node_status_triple, if_neg hmf]
        rcases List.mem_append.mp hm with h1 | h2
        · exact hdepcl m h1 hmf hmdep
        · rw [List.mem_singleton] at h2
          exact absurd h2 hmf
      · intro m hm
        have hmf : m ≠ n := fun h => hm (List.mem_append.mpr (Or.inr (by
          rw [h]
          exact List.mem_singleton.mpr rfl)))
        rw [node_status_triple, if_neg hmf]
        exact hpend m (fun hmd => hm (List.mem_append.mpr (Or.inl hmd)))
    · obtain ⟨out, hout⟩ := hok n hnf
        (get_node_input_data (set_node_status n .running ctx)
          (reverseGraph edges) n)
      rw [execute_single_node_of_ok nodeType procs
        (reverseGraph edges) ctx n out hcan hout]
      refine ⟨?_, ?_, ?_, ?_, ?_⟩
      · rw [status_ok_shape]
        exact hrun
      · intro hf
        rcases List.mem_append.mp hf with h1 | h2
        · obtain ⟨hs, r, hr, he⟩ := hfcl h1
          refine ⟨?_, r, ?_, he⟩
          · rw [node_status_ok_shape, if_neg (fun h => hnf h.symm)]
            exact hs
          · rw [node_results_ok_shape, if_neg (fun h => hnf h.symm)]
            exact hr
        · rw [List.mem_singleton] at h2
          exact absurd h2.symm hnf
      · intro m hm hmf hmdep
        rw [node_status_ok_shape]
        by_cases hmn : m = n
        · rw [if_pos hmn]
        · rw [if_neg hmn]
          rcases List.mem_append.mp hm with h1 | h2
          · exact hcomp m h1 hmf hmdep
          · rw [List.mem_singleton] at h2
            exact absurd h2 hmn
      · intro m hm hmf hmdep
        rcases List.mem_append.mp hm with h1 | h2
        · rw [node_status_ok_shape, if_neg (fun h => hnin (by
            rw [← h]
            exact h1))]
          exact hdepcl m h1 hmf hmdep
        · rw [List.mem_singleton] at h2
          subst h2
          exact absurd hmdep hdep
      · intro m hm
        have hmn : m ≠ n := fun h => hm (List.mem_append.mpr (Or.inr (by
          rw [h]
          exact List.mem_singleton.mpr rfl)))
        rw [node_status_ok_shape, if_neg hmn]
        exact hpend m (fun hmd => hm (List.mem_append.mpr (Or.inl hmd)))

theorem seqinv_level (nodeType : String → String)
    (procs : String → List (String × Val) → Except String (List (String × Val)))
    (edges : List (String × String)) (f : String)
    (hacyc : ¬HasCycle edges)
    (hcrit : should_stop_on_error nodeType f = false)
    (hfail : ∀ input, ∃ m, procs f input = .error m)
    (hok : ∀ m, m ≠ f → ∀ input, ∃ out, procs m input = .ok out) :
    ∀ (lv done : List String) (ctx : ExecutionContext),
      (done ++ lv).Nodup →
      (∀ n ∈ lv, ∀ p ∈ reverseGraph edges n, p ∈ done) →
      SeqInv edges f done ctx →
      SeqInv edges f (done ++ lv)
        (execute_level_sequential nodeType procs (reverseGraph edges) lv
          ctx) := by
  intro lv
  induction lv with
  | nil =>
    intro done ctx _ _ hinv
    rw [List.append_nil]
    exact hinv
  | cons n rest ih =>
    intro done ctx hnd hpre hinv
    have hrunS : ctx.status = .running := hinv.1
    have hrun : is_running ctx = true := by
      unfold is_running
      rw [hrunS]
      rfl
    have hfold : execute_level_sequential nodeType procs
        (reverseGraph edges) (n :: rest) ctx
        = execute_level_sequential nodeType procs (reverseGraph edges) rest
          (execute_single_node nodeType procs (reverseGraph edges) ctx
            n) := by
      unfold execute_level_sequential
      rw [List.foldl_cons]
      rw [hrun]
      rfl
    rw [hfold]
    have hnin : n ∉ done := by
      intro hmem
      exact (List.nodup_append.mp hnd).2.2 hmem (List.mem_cons_self n rest)
    have hstep := seqinv_step nodeType procs edges f hacyc hcrit hfail hok
      done ctx n hnin (hpre n (List.mem_cons_self n rest)) hinv
    have hnd' : ((done ++ [n]) ++ rest).Nodup := by
      rw [List.append_assoc, List.singleton_append]
      exact hnd
    have hpre' : ∀ m ∈ rest, ∀ p ∈ reverseGraph edges m,
        p ∈ done ++ [n] := by
      intro m hm p hp
      exact List.mem_append.mpr
        (Or.inl (hpre m (List.mem_cons_of_mem n hm) p hp))
    have hrest := ih (done ++ [n]) _ hnd' hpre' hstep
    rw [List.append_assoc, List.singleton_append] at hrest
    exact hrest

theorem seqinv_levels (nodeType : String → String)
    (procs : String → List (String × Val) → Except String (List (String × Val)))
    (edges : List (String × String)) (f : String)
    (hacyc : ¬HasCycle edges)
    (hcrit : should_stop_on_error nodeType f = false)
    (hfail : ∀ input, ∃ m, procs f input = .error m)
    (hok : ∀ m, m ≠ f → ∀ input, ∃ out, procs m input = .ok out) :
    ∀ (lvs : List (List String)) (done : List String)
      (ctx : ExecutionContext),
      (done ++ lvs.flatten).Nodup →
      (∀ j lv, lvs[j]? = some lv → ∀ n ∈ lv, ∀ p ∈ reverseGraph edges n,
        p ∈ done ++ (lvs.take j).flatten) →
      SeqInv edges f done ctx →
      SeqInv edges f (done ++ lvs.flatten)
        (lvs.foldl (fun c lv =>
          if !(is_running c) then c
          else execute_level_sequential nodeType procs (reverseGraph edges)
            lv c) ctx) := by
  intro lvs
  induction lvs with
  | nil =>
    intro done ctx _ _ hinv
    rw [List.flatten_nil, List.append_nil]
    exact hinv
  | cons lv rest ih =>
    intro done ctx hnd hpre hinv
    have hrunS : ctx.status = .running := hinv.1
    have hrun : is_running ctx = true := by
      unfold is_running
      rw [hrunS]
      rfl
    have hstep1 : (lv :: rest).foldl (fun c l =>
        if !(is_running c) then c
        else execute_level_sequential nodeType procs (reverseGraph edges)
          l c) ctx
        = rest.foldl (fun c l =>
          if !(is_running c) then c
          else execute_level_sequential nodeType procs (reverseGraph edges)
            l c)
          (execute_level_sequential nodeType procs (reverseGraph edges) lv
            ctx) := by
      rw [List.foldl_cons]
      rw [hrun]
      rfl
    rw [hstep1]
    have hnd2 : ((done ++ lv) ++ rest.flatten).Nodup := by
      rw [List.append_assoc,
        show lv ++ rest.flatten = (lv :: rest).flatten by
          rw [List.flatten_cons]]
      exact hnd
    have hndlv : (done ++ lv).Nodup := (List.nodup_append.mp hnd2).1
    have hprelv : ∀ n ∈ lv, ∀ p ∈ reverseGraph edges n, p ∈ done := by
      intro n hn p hp
      have hh := hpre 0 lv List.getElem?_cons_zero n hn p hp
      rw [List.take_zero, List.flatten_nil, List.append_nil] at hh
      exact hh
    have hlv := seqinv_level nodeType procs edges f hacyc hcrit hfail hok
      lv done ctx hndlv hprelv hinv
    have hpre' : ∀ j lv', rest[j]? = some lv' → ∀ n ∈ lv',
        ∀ p ∈ reverseGraph edges n,
        p ∈ (done ++ lv) ++ (rest.take j).flatten := by
      intro j lv' hj n hn p hp
      have hh := hpre (j + 1) lv' (by
        rw [List.getElem?_cons_succ]
        exact hj) n hn p hp
      rw [List.take_succ_cons, List.flatten_cons] at hh
      rw [List.append_assoc]
      exact hh
    have hfin := ih (done ++ lv) _ hnd2 hpre' hlv
    rw [List.flatten_cons, ← List.append_assoc]
    exact hfin

/-- **C5.** In a sequential run of a resolved acyclic flow where exactly
the node `f` fails (its processor raises on every input) and `f`'s type is
not in the critical set, the final context marks `f` `FAILED` with a
stored result carrying an `error` key, the run is not stopped by the
failure (it ends `COMPLETED`, not `STOPPED`), and every declared node
other than `f` with no transitive dependency on `f` ends `COMPLETED`. -/
theorem c5_noncritical_failure_isolated (nodes : List String)
    (edges : List (String × String)) (nodeType : String → String)
    (procs : String → List (String × Val) → Except String (List (String × Val)))
    (f : String) (levels : List (List String))
    (hnd : nodes.Nodup) (hvalid : EdgesValid nodes edges)
    (hacyc : ¬HasCycle edges)
    (hres : resolve_dependencies nodes edges = .ok levels)
    (hf : f ∈ nodes)
    (hcrit : should_stop_on_error nodeType f = false)
    (hfail : ∀ input, ∃ m, procs f input = .error m)
    (hok : ∀ n, n ≠ f → ∀ input, ∃ out, procs n input = .ok out) :
    get_node_status (execute_flow_sequential nodeType procs
      (reverseGraph edges) levels initContext) f = .failed ∧
    (∃ r, get_node_result (execute_flow_sequential nodeType procs
      (reverseGraph edges) levels initContext) f = some r ∧
      lookupA "error" r ≠ none) ∧
    (execute_flow_sequential nodeType procs (reverseGraph edges) levels
      initContext).status = .completed ∧
    (∀ n ∈ nodes, n ≠ f → ¬DependsOn edges f n →
      get_node_status (execute_flow_sequential nodeType procs
        (reverseGraph edges) levels initContext) n = .completed) := by
  have hts : topological_sort nodes edges = .ok levels :=
    resolve_ok_topological_sort nodes edges levels hres
  obtain ⟨levels', hok', hnodup', hmemiff', hlevok'⟩ :=
    topological_sort_ok_spec nodes edges hnd hvalid hacyc
  rw [hts] at hok'
  injection hok' with hok'
  subst hok'
  have hinv0 : SeqInv edges f [] (start_execution initContext) := by
    refine ⟨rfl, ?_, ?_, ?_, ?_⟩
    · intro hmem
      cases hmem
    · intro m hm
      cases hm
    · intro m hm
      cases hm
    · intro m _
      rfl
  have hmain := seqinv_levels nodeType procs edges f hacyc hcrit hfail hok
    levels [] (start_execution initContext)
    (by
      rw [List.nil_append]
      exact hnodup')
    (by
      intro j lv hj n hn p hp
      rw [List.nil_append]
      exact hlevok' j lv hj n hn p hp)
    hinv0
  rw [List.nil_append] at hmain
  obtain ⟨hrunA, hfclA, hcompA, hdepA, hpendA⟩ := hmain
  have hfmem : f ∈ levels.flatten := (hmemiff' f).mpr hf
  obtain ⟨hfstat, r, hfres, herr⟩ := hfclA hfmem
  have hflow : execute_flow_sequential nodeType procs (reverseGraph edges)
      levels initContext
      = complete_execution true none (levels.foldl (fun c lv =>
          if !(is_running c) then c
          else execute_level_sequential nodeType procs (reverseGraph edges)
            lv c) (start_execution initContext)) := rfl
  refine ⟨?_, ⟨r, ?_, herr⟩, ?_, ?_⟩
  · rw [hflow]
    exact hfstat
  · rw [hflow]
    exact hfres
  · rw [hflow]
    rfl
  · intro n hn hnf hndep
    rw [hflow]
    exact hcompA n ((hmemiff' n).mpr hn) hnf hndep

theorem c5_noncritical_failure_isolated_witness :
    ((["a", "b"] : List String).Nodup ∧
      EdgesValid ["a", "b"] ([] : List (String × String)) ∧
      ¬HasCycle ([] : List (String × String)) ∧
      resolve_dependencies ["a", "b"] ([] : List (String × String))
        = .ok [["a", "b"]] ∧
      ("b" : String) ∈ (["a", "b"] : List String) ∧
      should_stop_on_error (fun _ => "slider") "b" = false) ∧
    (get_node_status (execute_flow_sequential (fun _ => "slider")
        (fun n _ => if n = "b" then .error "boom"
          else .ok [("output", Val.num 1)])
        (reverseGraph ([] : List (String × String))) [["a", "b"]]
        initContext) "b" = .failed ∧
      (∃ r, get_node_result (execute_flow_sequential (fun _ => "slider")
        (fun n _ => if n = "b" then .error "boom"
          else .ok [("output", Val.num 1)])
        (reverseGraph ([] : List (String × String))) [["a", "b"]]
        initContext) "b" = some r ∧ lookupA "error" r ≠ none) ∧
      (execute_flow_sequential (fun _ => "slider")
        (fun n _ => if n = "b" then .error "boom"
          else .ok [("output", Val.num 1)])
        (reverseGraph ([] : List (String × String))) [["a", "b"]]
        initContext).status = .completed ∧
      (∀ n ∈ (["a", "b"] : List String), n ≠ "b" →
        ¬DependsOn ([] : List (String × String)) "b" n →
        get_node_status (execute_flow_sequential (fun _ => "slider")
          (fun n _ => if n = "b" then .error "boom"
            else .ok [("output", Val.num 1)])
          (reverseGraph ([] : List (String × String))) [["a", "b"]]
          initContext) n = .completed)) := by
  have hacyc : ¬HasCycle ([] : List (String × String)) := by
    rintro ⟨x, rest, hc⟩
    have hc' : List.Chain (EdgeAdj ([] : List (String × String))) x
        (rest ++ [x]) := hc
    obtain ⟨y, ys, hys⟩ := List.exists_cons_of_ne_nil
      (show rest ++ [x] ≠ [] by simp)
    rw [hys] at hc'
    cases hc' with
    | cons h _ => exact (List.not_mem_nil (x, y)) h
  have hnd : (["a", "b"] : List String).Nodup := by simp
  have hvalid : EdgesValid ["a", "b"] ([] : List (String × String)) :=
    fun e he => absurd he (List.not_mem_nil e)
  have hres : resolve_dependencies ["a", "b"]
      ([] : List (String × String)) = .ok [["a", "b"]] := by rfl
  have hfmem : ("b" : String) ∈ (["a", "b"] : List String) := by simp
  have hcrit : should_stop_on_error (fun _ => "slider") "b" = false := by
    rfl
  refine ⟨⟨hnd, hvalid, hacyc, hres, hfmem, hcrit⟩, ?_⟩
  exact c5_noncritical_failure_isolated ["a", "b"] [] (fun _ => "slider")
    (fun n _ => if n = "b" then .error "boom"
      else .ok [("output", Val.num 1)])
    "b" [["a", "b"]] hnd hvalid hacyc hres hfmem hcrit
    (fun input => ⟨"boom", by rfl⟩)
    (fun n hn input => ⟨[("output", Val.num 1)], by simp [hn]⟩)
